import Mathlib

/-!
# One-billion-row pipeline (`golang/main.go`): model and checked properties

The program reads `city;temperature` lines, parses them in worker goroutines and
folds the records into a `map[string]*Stats`.  This development embeds the
functions of `main.go` (`processLine`, `reader`, `worker`, `combiner`,
`DefaultStats`, `AddTemperature`) and proves properties of them.

## Numbers

`Stats` and `Record` hold `float32` values; `math.Max`, `math.Min` and
`strconv.ParseFloat` work on `float64`.  Both are modelled by one carrier,
`GoFloat`: NaN, the two infinities, and signed finite values `± mag · 2⁻¹⁴⁹`
with `mag` a natural number.  `2⁻¹⁴⁹` is the smallest positive `float32`, so every
`float32` value is of this form, and so is every `float64` value this program
handles (widened `float32` values, the constants `±(1<<24 - 1)`, and the results
of `ParseFloat(·, 32)`).  `Float32` is the subtype of values a `float32` can
hold; the conversion `float32(x)` rounds to nearest, ties to even, and `float32`
addition is the exact sum followed by that rounding.

## Text, goroutines, channels

A file content and a line are `String`s; the separator `;` is one character.  The
library call `strconv.ParseFloat(·, 32)` is a parameter of `processLine` and
`worker`.  The `bufio.Scanner` of `reader` is modelled by the lines it yields on a
file content (`Bufio.scanLines`): it cuts the content at newlines, drops a trailing
carriage return, and stops at the first line of 65536 bytes or more.
A goroutine is modelled by what it does from start to end: `reader` by the list of
batches it sends, `worker` by the list of records it sends for the batches it
receives, and `combiner` by the fold over the records in the order in which they
enter the critical section guarded by the mutex.  Run-time panics are results
(`Except Panic`).
-/

set_option maxRecDepth 20000

namespace Brc

/-! ## Floating point carrier -/

/-- Values of Go floating point expressions: NaN, `±Inf`, or the finite value
`(-1)^neg · mag · 2⁻¹⁴⁹`.  The two zeros are `fin false 0` and `fin true 0`. -/
inductive GoFloat where
  | nan
  | inf (neg : Bool)
  | fin (neg : Bool) (mag : Nat)
  deriving DecidableEq, Repr

/-- Halving loop behind `bitLen`; `fuel` bounds the number of halvings. -/
def bitLenAux : Nat → Nat → Nat
  | 0, _ => 0
  | fuel + 1, n => if n = 0 then 0 else bitLenAux fuel (n / 2) + 1

/-- Number of binary digits of `n` (`0` for `n = 0`). -/
def bitLen (n : Nat) : Nat := bitLenAux n n

/-- Spacing of `float32` values around the magnitude `n` (in units of `2⁻¹⁴⁹`):
a `float32` keeps 24 significant bits, and below `2²⁴` units the spacing is one
unit (subnormals and the lowest binades). -/
def quantum32 (n : Nat) : Nat := 2 ^ (bitLen n - 24)

/-- First magnitude that no longer fits a `float32`: `2¹²⁸`, in units. -/
def overflow32 : Nat := 2 ^ 128 * 2 ^ 149

/-- Round a magnitude to the nearest `float32` magnitude, ties to the even
mantissa; `none` when the rounded value overflows to infinity. -/
def roundMag32 (n : Nat) : Option Nat :=
  let d := quantum32 n
  let k := n / d
  let r := n % d
  let k1 := if d < 2 * r ∨ (2 * r = d ∧ k % 2 = 1) then k + 1 else k
  if k1 * d < overflow32 then some (k1 * d) else none

namespace GoFloat

/-- The natural number `n` as an exact value. -/
def ofNat (n : Nat) : GoFloat := .fin false (n * 2 ^ 149)

/-- The value `-n` for a natural number `n`. -/
def negOfNat (n : Nat) : GoFloat := .fin true (n * 2 ^ 149)

/-- Signed numerator of a finite value, in units of `2⁻¹⁴⁹`. -/
def signed (neg : Bool) (mag : Nat) : Int := if neg then -(mag : Int) else (mag : Int)

/-- Predicate `math.IsNaN`. -/
def IsNaN : GoFloat → Bool
  | .nan => true
  | _ => false

/-- Predicate `math.IsInf(f, sign)`: `sign > 0` asks for `+Inf`, `sign < 0` for
`-Inf`, `sign = 0` for either. -/
def IsInf (f : GoFloat) (sign : Int) : Bool :=
  match f with
  | .inf neg => (decide (0 ≤ sign) && !neg) || (decide (sign ≤ 0) && neg)
  | _ => false

/-- Function `math.Signbit`: the sign bit (NaN is produced here with a clear sign
bit). -/
def Signbit : GoFloat → Bool
  | .nan => false
  | .inf neg => neg
  | .fin neg _ => neg

/-- Go's `x < y` on floating point operands: false when either is NaN, the two
zeros compare equal. -/
def lt : GoFloat → GoFloat → Bool
  | .nan, _ => false
  | _, .nan => false
  | .inf s, .inf t => s && !t
  | .inf s, .fin _ _ => s
  | .fin _ _, .inf t => !t
  | .fin s m, .fin t n => decide (signed s m < signed t n)

/-- Go's `x <= y` on floating point operands. -/
def le : GoFloat → GoFloat → Bool
  | .nan, _ => false
  | _, .nan => false
  | .inf s, .inf t => s || !t
  | .inf s, .fin _ _ => s
  | .fin _ _, .inf t => !t
  | .fin s m, .fin t n => decide (signed s m ≤ signed t n)

/-- Go's `x == y` on floating point operands. -/
def feq : GoFloat → GoFloat → Bool
  | .nan, _ => false
  | _, .nan => false
  | .inf s, .inf t => s == t
  | .inf _, .fin _ _ => false
  | .fin _ _, .inf _ => false
  | .fin s m, .fin t n => decide (signed s m = signed t n)

/-- Go's `x == 0`. -/
def isZero (x : GoFloat) : Bool := feq x (.fin false 0)

/-- Whether a `float32` can hold the value. -/
def isFloat32 : GoFloat → Bool
  | .fin _ m => decide (m < overflow32) && decide (m % quantum32 m = 0)
  | _ => true

/-- Value of the conversion `float32(x)`: round to nearest even, overflow to the
infinity of the same sign. -/
def round32 : GoFloat → GoFloat
  | .fin s m =>
    match roundMag32 m with
    | some k => .fin s k
    | none => .inf s
  | x => x

/-- Exact sum of two values, with the IEEE 754 rules for infinities, NaN and the
sign of a zero result (round-to-nearest mode). -/
def add : GoFloat → GoFloat → GoFloat
  | .nan, _ => .nan
  | _, .nan => .nan
  | .inf s, .inf t => if s = t then .inf s else .nan
  | .inf s, .fin _ _ => .inf s
  | .fin _ _, .inf t => .inf t
  | .fin s m, .fin t n =>
    if s = t then .fin s (m + n)
    else if m = n then .fin false 0
    else if n < m then .fin s (m - n)
    else .fin t (n - m)

end GoFloat

/-! ## Package `math` -/

namespace Math

/-- Function `math.Max`, following the Go library: the special cases
`Max(x, +Inf) = Max(+Inf, x) = +Inf`, `Max(x, NaN) = Max(NaN, x) = NaN`,
`Max(+0, ±0) = Max(±0, +0) = +0`, `Max(-0, -0) = -0` are tested in this order, and
otherwise the result is `x` when `x > y` and `y` when not. -/
def Max (x y : GoFloat) : GoFloat :=
  if GoFloat.IsInf x 1 || GoFloat.IsInf y 1 then .inf false
  else if GoFloat.IsNaN x || GoFloat.IsNaN y then .nan
  else if GoFloat.isZero x && GoFloat.feq x y then (if GoFloat.Signbit x then y else x)
  else if GoFloat.lt y x then x
  else y

/-- Function `math.Min`, following the Go library: the special cases
`Min(x, -Inf) = Min(-Inf, x) = -Inf`, `Min(x, NaN) = Min(NaN, x) = NaN`,
`Min(-0, ±0) = Min(±0, -0) = -0` are tested in this order, and otherwise the result
is `x` when `x < y` and `y` when not. -/
def Min (x y : GoFloat) : GoFloat :=
  if GoFloat.IsInf x (-1) || GoFloat.IsInf y (-1) then .inf true
  else if GoFloat.IsNaN x || GoFloat.IsNaN y then .nan
  else if GoFloat.isZero x && GoFloat.feq x y then (if GoFloat.Signbit x then x else y)
  else if GoFloat.lt x y then x
  else y

end Math

/-! ## The type `float32` -/

/-- A `float32` value. -/
structure Float32 where
  val : GoFloat
  isFloat32 : val.isFloat32 = true
  deriving DecidableEq

/-- Conversion `float32(x)`.  The rounded value always fits (theorem
`float32_val`), so the fallback branch is never taken. -/
def float32 (x : GoFloat) : Float32 :=
  if h : x.round32.isFloat32 = true then ⟨x.round32, h⟩ else ⟨.nan, rfl⟩

/-- Conversion `float64(x)` of a `float32`: the same value. -/
def float64 (x : Float32) : GoFloat := x.val

namespace Float32

/-- Addition of two `float32` values: the exact sum, rounded. -/
def add (a b : Float32) : Float32 := float32 (GoFloat.add a.val b.val)

/-- A natural number constant converted to `float32`. -/
def ofNat (n : Nat) : Float32 := float32 (GoFloat.ofNat n)

/-- Go's `a <= b` on `float32`. -/
def le (a b : Float32) : Bool := GoFloat.le a.val b.val

end Float32

/-! ## `main.go`: constants, `Record`, `Stats` -/

/-- Constant `MaxFloat32 = float64(1<<24 - 1)`. -/
def MaxFloat32 : GoFloat := GoFloat.ofNat (2 ^ 24 - 1)

/-- Constant `MinFloat32 = -float64(1<<24 - 1)`. -/
def MinFloat32 : GoFloat := GoFloat.negOfNat (2 ^ 24 - 1)

/-- Struct `Record`. -/
structure Record where
  city : String
  temperature : Float32
  deriving DecidableEq

/-- Function `NewRecord`. -/
def NewRecord (city : String) (temperature : Float32) : Record :=
  { city := city, temperature := temperature }

/-- Struct `Stats`. -/
structure Stats where
  min : Float32
  max : Float32
  sum : Float32
  count : Float32
  deriving DecidableEq

/-- Function `DefaultStats`. -/
def DefaultStats : Stats :=
  { min := float32 MaxFloat32
    max := float32 MinFloat32
    sum := Float32.ofNat 0
    count := Float32.ofNat 0 }

/-- Method `(*Stats).AddTemperature`. -/
def Stats.AddTemperature (s : Stats) (temp : Float32) : Stats :=
  { max := float32 (Math.Max (float64 s.max) (float64 temp))
    min := float32 (Math.Min (float64 s.min) (float64 temp))
    sum := Float32.add s.sum temp
    count := Float32.add s.count (Float32.ofNat 1) }

/-- Folding a list of temperatures into a `Stats`, one `AddTemperature` call per
value, in list order. -/
def Stats.addAll (s : Stats) (temps : List Float32) : Stats :=
  temps.foldl Stats.AddTemperature s

/-- Whether the `float32` addition `a + b` is exact: both operands are finite and
their exact sum is a `float32` value, so the rounding step changes nothing. -/
def Float32.addIsExact (a b : Float32) : Bool :=
  match a.val, b.val with
  | .fin _ _, .fin _ _ => (GoFloat.add a.val b.val).isFloat32
  | _, _ => false

/-- Whether every addition performed on the `sum` field is exact when `temps` is
folded in, starting from the running sum `acc`. -/
def sumsExact : Float32 → List Float32 → Bool
  | _, [] => true
  | acc, t :: ts => Float32.addIsExact acc t && sumsExact (Float32.add acc t) ts

/-! ## Package `strings`, package `strconv` -/

namespace Strings

/-- Splitting a character sequence at every occurrence of `sep`. -/
def splitChars (sep : Char) : List Char → List (List Char)
  | [] => [[]]
  | c :: cs =>
    if c = sep then [] :: splitChars sep cs
    else
      match splitChars sep cs with
      | [] => [[c]]
      | f :: fs => (c :: f) :: fs

/-- Function `strings.Split(s, sep)` for a one-character separator: the pieces of
`s` between the occurrences of `sep`, always at least one piece. -/
def Split (s : String) (sep : Char) : List String :=
  (splitChars sep s.data).map String.mk

end Strings

namespace Strconv

/-- Error kinds `strconv.ErrSyntax` and `strconv.ErrRange`. -/
inductive ErrKind where
  | ErrSyntax
  | ErrRange
  deriving DecidableEq, Repr

/-- Struct `strconv.NumError`. -/
structure NumError where
  Func : String
  Num : String
  Err : ErrKind
  deriving DecidableEq, Repr

/-- Value of a decimal digit string, most significant digit first. -/
def digitsValue (cs : List Char) : Nat :=
  cs.foldl (fun acc c => 10 * acc + (c.toNat - 48)) 0

/-- Whether every character is one of `0` … `9`. -/
def allDigits (cs : List Char) : Bool :=
  cs.all (fun c => decide (48 ≤ c.toNat) && decide (c.toNat ≤ 57))

/-- Reading `digits`, `digits.`, `.digits` or `digits.digits` (at least one digit):
the digits read as one integer, and the number of digits after the point. -/
def readDecimal (cs : List Char) : Option (Nat × Nat) :=
  match Strings.splitChars '.' cs with
  | [ip] => if ip ≠ [] ∧ allDigits ip then some (digitsValue ip, 0) else none
  | [ip, fp] =>
    if (ip ≠ [] ∨ fp ≠ []) ∧ allDigits ip ∧ allDigits fp then
      some (digitsValue (ip ++ fp), fp.length)
    else none
  | _ => none

/-- The fraction `num / den` rounded to the nearest `float32` magnitude, ties to
even; `none` on overflow. -/
def roundRat32 (num den : Nat) : Option Nat :=
  let n := num * 2 ^ 149
  let q := quantum32 (n / den)
  let d := den * q
  let k := n / d
  let r := n % d
  let k1 := if d < 2 * r ∨ (2 * r = d ∧ k % 2 = 1) then k + 1 else k
  if k1 * q < overflow32 then some (k1 * q) else none

/-- Reference behaviour of `strconv.ParseFloat(s, 32)` on the texts this
development evaluates it on: an optional sign followed by a plain decimal
(`digits`, with an optional `.` and fraction) yields the nearest `float32`, or
`±Inf` with `ErrRange` on overflow; `NaN`, and `Inf`/`Infinity` with an optional
sign, in any letter case, yield the special values; a text without any digit that
is none of these names is a syntax error.  The library accepts further notations
(exponents, hexadecimal mantissas, digit separators); they are outside this
reference and it reports them as syntax errors.  The properties of `processLine`
and `worker` below are proved for an arbitrary parse function and do not depend
on this one. -/
def parseDecimal (s : String) : GoFloat × Option NumError :=
  let cs := s.data
  let lower := String.mk (cs.map Char.toLower)
  let neg := cs.head? = some '-'
  let body := if cs.head? = some '-' ∨ cs.head? = some '+' then cs.tail else cs
  let lowerBody := String.mk (body.map Char.toLower)
  if lower = "nan" then (.nan, none)
  else if lowerBody = "inf" ∨ lowerBody = "infinity" then (.inf neg, none)
  else
    match readDecimal body with
    | none => (.fin false 0, some ⟨"ParseFloat", s, .ErrSyntax⟩)
    | some (num, fracDigits) =>
      match roundRat32 num (10 ^ fracDigits) with
      | some m => (.fin neg m, none)
      | none => (.inf neg, some ⟨"ParseFloat", s, .ErrRange⟩)

end Strconv

/-! ## `main.go`: `processLine` -/

/-- Run-time panics these functions can raise. -/
inductive Panic where
  | indexOutOfRange (index length : Nat)
  | makesliceLenOutOfRange
  deriving DecidableEq, Repr

deriving instance DecidableEq for Except

/-- The zero value `Record{}`. -/
def Record.zero : Record := { city := "", temperature := Float32.ofNat 0 }

/-- Function `processLine`.  `ParseFloat` stands for the library call
`strconv.ParseFloat(·, 32)`; the result is the returned pair `(Record, error)`, or
the panic raised by an index expression. -/
def processLine (ParseFloat : String → GoFloat × Option Strconv.NumError) (line : String) :
    Except Panic (Record × Option Strconv.NumError) :=
  let infos := Strings.Split line ';'
  match infos[0]? with
  | none => .error (.indexOutOfRange 0 infos.length)
  | some city =>
    match infos[1]? with
    | none => .error (.indexOutOfRange 1 infos.length)
    | some field =>
      match ParseFloat field with
      | (_, some err) => .ok (Record.zero, some err)
      | (temp, none) => .ok ({ city := city, temperature := float32 temp }, none)

/-- What the specification asks of line parsing: split on the delimiter, require
exactly two fields, parse the second field as a number; anything else is a
malformed line and yields no record. -/
def specParse (ParseFloat : String → GoFloat × Option Strconv.NumError) (line : String) :
    Option Record :=
  match Strings.Split line ';' with
  | [city, field] =>
    match ParseFloat field with
    | (temp, none) => some { city := city, temperature := float32 temp }
    | (_, some _) => none
  | _ => none

/-! ## Package `bufio`: the line scanner -/

namespace Bufio

/-- Constant `bufio.MaxScanTokenSize`. -/
def MaxScanTokenSize : Nat := 64 * 1024

/-- Number of bytes of the UTF-8 encoding of a character sequence. -/
def byteLen (cs : List Char) : Nat := (cs.map Char.utf8Size).sum

/-- Function `dropCR`: a trailing carriage return is not part of the line. -/
def dropCR (cs : List Char) : List Char :=
  if cs.getLast? = some '\r' then cs.dropLast else cs

/-- The stretches of a file content between its newlines, in order: what
`ScanLines` cuts out, before `dropCR`.  The stretch after the last newline counts
only when it is not empty. -/
def rawLines (content : List Char) : List (List Char) :=
  if (Strings.splitChars '\n' content).getLast? = some [] then
    (Strings.splitChars '\n' content).dropLast
  else Strings.splitChars '\n' content

/-- The lines of a file content, in the sense of `bufio.ScanLines`: the end-of-line
marker is one optional carriage return followed by one newline, and the last line
needs no newline. -/
def fileLines (file : String) : List String :=
  (rawLines file.data).map (fun p => String.mk (dropCR p))

/-- The texts that successive calls of `Scan` and `Text` yield on a scanner made by
`bufio.NewScanner` with the split function `ScanLines` and the default buffer: the
lines of the content up to the first one whose stretch has `MaxScanTokenSize`
bytes or more.  There `Scan` records `ErrTooLong` and returns false, as it does at
the end of the content.  Read errors of the file are not modelled. -/
def scanLines (file : String) : List String :=
  ((rawLines file.data).takeWhile (fun p => decide (byteLen p < MaxScanTokenSize))).map
    (fun p => String.mk (dropCR p))

end Bufio

/-! ## `main.go`: `reader` -/

/-- The `context.Context` handed to the pipeline stages, as the stages observe it:
whether its `Done` channel is closed.  `processFile` cancels the context only when
it returns, so the flag is constant during a run. -/
structure Context where
  done : Bool
  deriving DecidableEq

/-- A context that is not cancelled. -/
def Context.live : Context := { done := false }

/-- Local state of the `reader` goroutine, with the batches sent on `out` so far
(oldest first). -/
structure ReaderState where
  batch : List String
  index : Nat
  count : Nat
  out : List (List String)
  deriving DecidableEq

/-- One pass through the `default` branch of the loop in `reader`: store the line,
and once the slice is full send it and start a fresh one. -/
def readerStep (batchSize : Nat) (st : ReaderState) (line : String) : Except Panic ReaderState :=
  if st.index < st.batch.length then
    let batch := st.batch.set st.index line
    let index := st.index + 1
    if index = batchSize then
      .ok { batch := List.replicate batchSize "", index := 0, count := st.count + 1,
            out := st.out ++ [batch] }
    else
      .ok { batch := batch, index := index, count := st.count, out := st.out }
  else .error (.indexOutOfRange st.index st.batch.length)

/-- The loop `for scanner.Scan() { select { ... } }` over the remaining lines. -/
def readerLoop (ctx : Context) (batchSize : Nat) : ReaderState → List String → Except Panic ReaderState
  | st, [] => .ok st
  | st, line :: rest =>
    if ctx.done then .ok st
    else
      match readerStep batchSize st line with
      | .error p => .error p
      | .ok st1 => readerLoop ctx batchSize st1 rest

/-- Function `reader`, run to completion: the sequence of batches sent on the
returned channel before it is closed.  `file` is the content of the opened file,
read through a `bufio.Scanner` with its default settings.  `maxLen` is the largest
length for which `make([]string, n)` returns in this run: for a negative or a
larger `n` the call panics (`makeslice: len out of range`; with 16-byte string
headers and 48 address bits that is every `n` above `2⁴⁴`, and the memory at hand
may set the limit lower). -/
def reader (ctx : Context) (maxLen : Nat) (file : String) (batchSize : Int) :
    Except Panic (List (List String)) :=
  if batchSize < 0 ∨ (maxLen : Int) < batchSize then .error .makesliceLenOutOfRange
  else
    let init : ReaderState :=
      { batch := List.replicate batchSize.toNat "", index := 0, count := 0, out := [] }
    match readerLoop ctx batchSize.toNat init (Bufio.scanLines file) with
    | .error p => .error p
    | .ok st => .ok st.out

/-! ## `main.go`: `worker` -/

/-- What a worker goroutine has produced: the records sent on its channel and the
errors it printed, both oldest first. -/
structure WorkerState where
  out : List Record
  printed : List Strconv.NumError
  deriving DecidableEq

/-- How an inner loop ended: it ran to the end of the batch, or the goroutine
returned from inside it. -/
inductive Flow where
  | next (st : WorkerState)
  | returned (st : WorkerState)

/-- The loop `for _, line := range sub` of `worker`. -/
def workerLines (ctx : Context) (ParseFloat : String → GoFloat × Option Strconv.NumError) :
    WorkerState → List String → Except Panic Flow
  | st, [] => .ok (.next st)
  | st, line :: rest =>
    if ctx.done then .ok (.returned st)
    else
      match processLine ParseFloat line with
      | .error p => .error p
      | .ok (_, some err) =>
        workerLines ctx ParseFloat { st with printed := st.printed ++ [err] } rest
      | .ok (record, none) =>
        workerLines ctx ParseFloat { st with out := st.out ++ [record] } rest

/-- The loop `for sub := range in` of `worker`, over the batches this worker
receives. -/
def workerBatches (ctx : Context) (ParseFloat : String → GoFloat × Option Strconv.NumError) :
    WorkerState → List (List String) → Except Panic WorkerState
  | st, [] => .ok st
  | st, sub :: rest =>
    match workerLines ctx ParseFloat st sub with
    | .error p => .error p
    | .ok (.returned st1) => .ok st1
    | .ok (.next st1) => workerBatches ctx ParseFloat st1 rest

/-- Function `worker`, run to completion on the batches it dequeues. -/
def worker (ctx : Context) (ParseFloat : String → GoFloat × Option Strconv.NumError)
    (batches : List (List String)) : Except Panic WorkerState :=
  workerBatches ctx ParseFloat { out := [], printed := [] } batches

/-- The record `processLine` returns for a line when it returns without error. -/
def parsedRecord (ParseFloat : String → GoFloat × Option Strconv.NumError) (line : String) :
    Option Record :=
  match processLine ParseFloat line with
  | .ok (record, none) => some record
  | _ => none

/-- The error `processLine` returns for a line when it returns one. -/
def parseFailure (ParseFloat : String → GoFloat × Option Strconv.NumError) (line : String) :
    Option Strconv.NumError :=
  match processLine ParseFloat line with
  | .ok (_, some err) => some err
  | _ => none

/-! ## `main.go`: `combiner` -/

/-- The map `map[string]*Stats`, as a list of entries. -/
abbrev StatsMap := List (String × Stats)

/-- Map lookup `result[key]`. -/
def StatsMap.get : StatsMap → String → Option Stats
  | [], _ => none
  | (k, v) :: rest, key => if k = key then some v else StatsMap.get rest key

/-- Map update: replace the entry of `key`, or add one when there is none. -/
def StatsMap.set : StatsMap → String → Stats → StatsMap
  | [], key, v => [(key, v)]
  | (k, w) :: rest, key, v =>
    if k = key then (key, v) :: rest else (k, w) :: StatsMap.set rest key v

/-- The keys of the map. -/
def StatsMap.keys (m : StatsMap) : List String := m.map Prod.fst

/-- The body of the loop in `multiplexer` for one received record: under the
mutex, look the city up and fold the temperature into its entry, creating the
entry first when there is none.  With a cancelled context the record is dropped. -/
def multiplexerStep (ctx : Context) (result : StatsMap) (record : Record) : StatsMap :=
  if ctx.done then result
  else
    match result.get record.city with
    | none => result.set record.city (DefaultStats.AddTemperature record.temperature)
    | some stats => result.set record.city (stats.AddTemperature record.temperature)

/-- Function `combiner`.  Every record is handled inside the critical section of
the single mutex, so a run is determined by the order in which the listeners
enter it; `schedule` is that order. -/
def combiner (ctx : Context) (schedule : List Record) : StatsMap :=
  schedule.foldl (multiplexerStep ctx) []

/-- The orders in which records arriving on several channels can enter the
critical section: any merge of the channels that keeps the order within each. -/
inductive Interleaving : List (List Record) → List Record → Prop where
  | nil (inputs : List (List Record)) : (∀ q ∈ inputs, q = []) → Interleaving inputs []
  | cons (pre post : List (List Record)) (q : List Record) (r : Record)
      (schedule : List Record) :
      Interleaving (pre ++ q :: post) schedule →
      Interleaving (pre ++ (r :: q) :: post) (r :: schedule)

/-- The temperatures of the records of `city`, in schedule order. -/
def tempsOf (city : String) (records : List Record) : List Float32 :=
  (records.filter (fun r => decide (r.city = city))).map (fun r => r.temperature)

/-! ## Order keys

`math.Max` and `math.Min` pick the larger, respectively smaller, operand of a
total order on all values; the keys below describe it.  `Max` orders
`-Inf < finite < NaN < +Inf`, `Min` orders `-Inf < NaN < finite < +Inf`, and both
order the finite values by `finKey`, which puts `-0` right below `+0`. -/

/-- Position of a finite value among the finite values. -/
def finKey : GoFloat → Int
  | .fin s m => if s then -2 * (m : Int) else 2 * (m : Int) + 1
  | _ => 0

/-- Tier of a value in the order `math.Max` selects by. -/
def maxTier : GoFloat → Int
  | .inf true => 0
  | .fin _ _ => 1
  | .nan => 2
  | .inf false => 3

/-- Tier of a value in the order `math.Min` selects by. -/
def minTier : GoFloat → Int
  | .inf true => 0
  | .nan => 1
  | .fin _ _ => 2
  | .inf false => 3

/-! ## Exact sums

Bookkeeping for sums that incur no rounding: a finite value is determined by its
signed numerator together with the information whether it is `-0`. -/

/-- Signed numerator of a finite value, in units of `2⁻¹⁴⁹` (`0` for the others). -/
def GoFloat.numer : GoFloat → Int
  | .fin s m => GoFloat.signed s m
  | _ => 0

/-- Whether the value is the negative zero. -/
def GoFloat.isNegZero : GoFloat → Bool
  | .fin s m => s && decide (m = 0)
  | _ => false

/-- Whether the value is finite. -/
def GoFloat.isFinite : GoFloat → Bool
  | .fin _ _ => true
  | _ => false

/-! ## Rounding facts -/

theorem bitLenAux_spec (fuel n : Nat) (h : n ≤ fuel) :
    n < 2 ^ bitLenAux fuel n ∧ (n ≠ 0 → 2 ^ (bitLenAux fuel n - 1) ≤ n) := by
  induction fuel generalizing n with
  | zero =>
    have : n = 0 := by omega
    subst this
    simp [bitLenAux]
  | succ f ih =>
    unfold bitLenAux
    by_cases hn : n = 0
    · simp [hn]
    · simp only [hn, if_false]
      have h2 : n / 2 ≤ f := by omega
      obtain ⟨h3, h4⟩ := ih (n / 2) h2
      refine ⟨?_, fun _ => ?_⟩
      · rw [pow_succ]; omega
      · simp only [Nat.add_sub_cancel]
        by_cases h5 : n / 2 = 0
        · have : bitLenAux f (n / 2) = 0 := by
            cases f <;> simp [bitLenAux, h5]
          rw [this]; simp; omega
        · have h6 := h4 h5
          have h7 : bitLenAux f (n / 2) ≠ 0 := by
            intro h8
            rw [h8] at h3
            simp at h3
            exact h5 h3
          obtain ⟨k, hk⟩ := Nat.exists_eq_succ_of_ne_zero h7
          rw [hk] at h6 ⊢
          simp only [Nat.succ_sub_one] at h6
          rw [Nat.succ_eq_add_one, pow_succ]
          omega

theorem lt_two_pow_bitLen (n : Nat) : n < 2 ^ bitLen n :=
  (bitLenAux_spec n n (Nat.le_refl n)).1

theorem two_pow_bitLen_le (n : Nat) (h : n ≠ 0) : 2 ^ (bitLen n - 1) ≤ n :=
  (bitLenAux_spec n n (Nat.le_refl n)).2 h

theorem bitLen_le_of_lt (n k : Nat) (h : n < 2 ^ k) : bitLen n ≤ k := by
  by_cases hn : n = 0
  · subst hn; simp [bitLen, bitLenAux]
  · have h1 := two_pow_bitLen_le n hn
    have h2 : 2 ^ (bitLen n - 1) < 2 ^ k := lt_of_le_of_lt h1 h
    have h3 := (Nat.pow_lt_pow_iff_right (by norm_num : 1 < 2)).1 h2
    omega

theorem lt_bitLen_of_le (n k : Nat) (h : 2 ^ k ≤ n) : k < bitLen n := by
  have h1 := lt_two_pow_bitLen n
  have h2 : 2 ^ k < 2 ^ bitLen n := lt_of_le_of_lt h h1
  exact (Nat.pow_lt_pow_iff_right (by norm_num : 1 < 2)).1 h2

theorem bitLen_eq (n k : Nat) (h1 : 2 ^ k ≤ n) (h2 : n < 2 ^ (k + 1)) : bitLen n = k + 1 := by
  have := bitLen_le_of_lt n (k + 1) h2
  have := lt_bitLen_of_le n k h1
  omega

theorem quantum32_pos (n : Nat) : 0 < quantum32 n := by
  unfold quantum32; positivity

theorem roundMag32_of_rep (n : Nat) (h1 : n < overflow32) (h2 : n % quantum32 n = 0) :
    roundMag32 n = some n := by
  have hd := quantum32_pos n
  have h3 : n / quantum32 n * quantum32 n = n := Nat.div_mul_cancel (Nat.dvd_of_mod_eq_zero h2)
  unfold roundMag32
  simp only [h2]
  have h4 : ¬ (quantum32 n < 2 * 0 ∨ (2 * 0 = quantum32 n ∧ n / quantum32 n % 2 = 1)) := by
    omega
  simp only [h4, if_false, h3, h1, if_true]

theorem quantum32_eq_one (n : Nat) (h : n < 2 ^ 24) : quantum32 n = 1 := by
  have := bitLen_le_of_lt n 24 h
  unfold quantum32
  have : bitLen n - 24 = 0 := by omega
  rw [this]; rfl

theorem quantum32_rounded (n k1 : Nat) (h24 : 2 ^ 24 ≤ n)
    (hk : k1 = n / quantum32 n ∨ k1 = n / quantum32 n + 1) :
    (k1 * quantum32 n) % quantum32 (k1 * quantum32 n) = 0 := by
  have hL := lt_bitLen_of_le n 24 h24
  obtain ⟨e, he⟩ : ∃ e, bitLen n = e + 25 := ⟨bitLen n - 25, by omega⟩
  have hq : quantum32 n = 2 ^ (e + 1) := by
    unfold quantum32; rw [he, show e + 25 - 24 = e + 1 by omega]
  have hn0 : n ≠ 0 := by
    have : 0 < 2 ^ 24 := by positivity
    omega
  have hlo : 2 ^ (e + 24) ≤ n := by
    have := two_pow_bitLen_le n hn0
    rw [he] at this
    simpa using this
  have hhi : n < 2 ^ (e + 25) := by
    have := lt_two_pow_bitLen n
    rwa [he] at this
  have hpos : 0 < 2 ^ (e + 1) := by positivity
  have hklo : 2 ^ 23 ≤ n / 2 ^ (e + 1) := by
    rw [Nat.le_div_iff_mul_le hpos, ← pow_add]
    have : 23 + (e + 1) = e + 24 := by omega
    rw [this]; exact hlo
  have hkhi : n / 2 ^ (e + 1) < 2 ^ 24 := by
    rw [Nat.div_lt_iff_lt_mul hpos, ← pow_add]
    have : 24 + (e + 1) = e + 25 := by omega
    rw [this]; exact hhi
  rw [hq] at hk ⊢
  by_cases hc : k1 < 2 ^ 24
  · have hk1lo : 2 ^ 23 ≤ k1 := by omega
    have hm1 : 2 ^ (e + 24) ≤ k1 * 2 ^ (e + 1) := by
      have : 2 ^ (e + 24) = 2 ^ 23 * 2 ^ (e + 1) := by
        rw [← pow_add, show 23 + (e + 1) = e + 24 by omega]
      rw [this]; exact Nat.mul_le_mul_right _ hk1lo
    have hm2 : k1 * 2 ^ (e + 1) < 2 ^ (e + 24 + 1) := by
      have : 2 ^ (e + 24 + 1) = 2 ^ 24 * 2 ^ (e + 1) := by
        rw [← pow_add, show 24 + (e + 1) = e + 24 + 1 by omega]
      rw [this]; exact Nat.mul_lt_mul_of_pos_right hc hpos
    have hb := bitLen_eq _ _ hm1 hm2
    have : quantum32 (k1 * 2 ^ (e + 1)) = 2 ^ (e + 1) := by
      unfold quantum32; rw [hb, show e + 24 + 1 - 24 = e + 1 by omega]
    rw [this]; exact Nat.mul_mod_left _ _
  · have hk1 : k1 = 2 ^ 24 := by omega
    subst hk1
    have hm : 2 ^ 24 * 2 ^ (e + 1) = 2 ^ (e + 25) := by
      rw [← pow_add, show 24 + (e + 1) = e + 25 by omega]
    have hb := bitLen_eq (2 ^ (e + 25)) (e + 25) (Nat.le_refl _)
      (Nat.pow_lt_pow_right (by norm_num) (by omega))
    rw [hm]
    have : quantum32 (2 ^ (e + 25)) = 2 ^ (e + 2) := by
      unfold quantum32; rw [hb, show e + 25 + 1 - 24 = e + 2 by omega]
    rw [this]
    have : 2 ^ (e + 25) = 2 ^ 23 * 2 ^ (e + 2) := by
      rw [← pow_add, show 23 + (e + 2) = e + 25 by omega]
    rw [this]; exact Nat.mul_mod_left _ _

theorem roundMag32_valid (n m : Nat) (h : roundMag32 n = some m) :
    m < overflow32 ∧ m % quantum32 m = 0 := by
  unfold roundMag32 at h
  simp only at h
  generalize hk : (if quantum32 n < 2 * (n % quantum32 n) ∨
      (2 * (n % quantum32 n) = quantum32 n ∧ n / quantum32 n % 2 = 1)
      then n / quantum32 n + 1 else n / quantum32 n) = k1 at h
  by_cases hlt : k1 * quantum32 n < overflow32
  · rw [if_pos hlt] at h
    injection h with h
    subst h
    refine ⟨hlt, ?_⟩
    by_cases h24 : 2 ^ 24 ≤ n
    · apply quantum32_rounded n _ h24
      rw [← hk]
      split
      · right; rfl
      · left; rfl
    · have hq := quantum32_eq_one n (by omega)
      rw [hq] at hk
      have hc : ¬ (1 < 2 * (n % 1) ∨ (2 * (n % 1) = 1 ∧ n / 1 % 2 = 1)) := by omega
      rw [if_neg hc, Nat.div_one] at hk
      subst hk
      rw [hq, Nat.mul_one, hq]
      exact Nat.mod_one _
  · rw [if_neg hlt] at h
    exact absurd h (by simp)

theorem round32_fin (s : Bool) (m : Nat) : (GoFloat.fin s m).round32 =
    match roundMag32 m with
    | some k => .fin s k
    | none => .inf s := rfl

theorem isFloat32_fin (s : Bool) (m : Nat) : (GoFloat.fin s m).isFloat32 =
    (decide (m < overflow32) && decide (m % quantum32 m = 0)) := rfl

theorem isFloat32_fin_iff (s : Bool) (m : Nat) : (GoFloat.fin s m).isFloat32 = true ↔
    m < overflow32 ∧ m % quantum32 m = 0 := by
  rw [isFloat32_fin, Bool.and_eq_true, decide_eq_true_eq, decide_eq_true_eq]

theorem isFloat32_round32 (x : GoFloat) : x.round32.isFloat32 = true := by
  cases x with
  | nan => rfl
  | inf s => rfl
  | fin s m =>
    rw [round32_fin]
    cases h : roundMag32 m with
    | none => rfl
    | some k => exact (isFloat32_fin_iff s k).2 (roundMag32_valid m k h)

theorem float32_val (x : GoFloat) : (float32 x).val = x.round32 := by
  unfold float32
  rw [dif_pos (isFloat32_round32 x)]

theorem round32_of_isFloat32 (x : GoFloat) (h : x.isFloat32 = true) : x.round32 = x := by
  cases x with
  | nan => rfl
  | inf s => rfl
  | fin s m =>
    rw [isFloat32_fin_iff] at h
    rw [round32_fin, roundMag32_of_rep m h.1 h.2]

theorem Float32.ext_val (a b : Float32) (h : a.val = b.val) : a = b := by
  cases a; cases b; cases h; rfl

theorem float32_of_val (a : Float32) : float32 a.val = a :=
  Float32.ext_val _ _ (by rw [float32_val, round32_of_isFloat32 _ a.isFloat32])

theorem float32_eq_of_isFloat32 (x : GoFloat) (h : x.isFloat32 = true) :
    (float32 x).val = x := by
  rw [float32_val, round32_of_isFloat32 _ h]

/-! ## Facts about `math.Max` and `math.Min` -/

theorem Max_eq_or (x y : GoFloat) : Math.Max x y = x ∨ Math.Max x y = y := by
  unfold Math.Max
  cases x <;> cases y <;> simp [GoFloat.IsInf, GoFloat.IsNaN] <;> (repeat' split) <;> simp_all

theorem Min_eq_or (x y : GoFloat) : Math.Min x y = x ∨ Math.Min x y = y := by
  unfold Math.Min
  cases x <;> cases y <;> simp [GoFloat.IsInf, GoFloat.IsNaN] <;> (repeat' split) <;> simp_all

theorem Max_fin_fin (s t : Bool) (m n : Nat) :
    Math.Max (.fin s m) (.fin t n) =
      if (if t then -2 * (n : Int) else 2 * n + 1) ≤ (if s then -2 * (m : Int) else 2 * m + 1)
      then .fin s m else .fin t n := by
  unfold Math.Max
  cases s <;> cases t <;>
    simp [GoFloat.IsInf, GoFloat.IsNaN, GoFloat.isZero, GoFloat.feq, GoFloat.lt, GoFloat.signed,
      GoFloat.Signbit] <;> (repeat' split) <;> simp_all <;> omega

theorem Min_fin_fin (s t : Bool) (m n : Nat) :
    Math.Min (.fin s m) (.fin t n) =
      if (if s then -2 * (m : Int) else 2 * m + 1) ≤ (if t then -2 * (n : Int) else 2 * n + 1)
      then .fin s m else .fin t n := by
  unfold Math.Min
  cases s <;> cases t <;>
    simp [GoFloat.IsInf, GoFloat.IsNaN, GoFloat.isZero, GoFloat.feq, GoFloat.lt, GoFloat.signed,
      GoFloat.Signbit] <;> (repeat' split) <;> simp_all <;> omega

theorem Max_rank (x y : GoFloat) :
    Math.Max x y =
      if maxTier y < maxTier x ∨ (maxTier y = maxTier x ∧ finKey y ≤ finKey x) then x else y := by
  cases x with
  | nan =>
    unfold Math.Max
    cases y with
    | nan => simp [GoFloat.IsInf, GoFloat.IsNaN]
    | inf t => cases t <;> simp [GoFloat.IsInf, GoFloat.IsNaN, maxTier, finKey]
    | fin t n => simp [GoFloat.IsInf, GoFloat.IsNaN, maxTier, finKey]
  | inf s =>
    unfold Math.Max
    cases y with
    | nan => cases s <;> simp [GoFloat.IsInf, GoFloat.IsNaN, maxTier, finKey]
    | inf t =>
      cases s <;> cases t <;>
        simp [GoFloat.IsInf, GoFloat.IsNaN, maxTier, finKey, GoFloat.isZero, GoFloat.feq,
          GoFloat.lt]
    | fin t n =>
      cases s <;>
        simp [GoFloat.IsInf, GoFloat.IsNaN, maxTier, finKey, GoFloat.isZero, GoFloat.feq,
          GoFloat.lt]
  | fin s m =>
    cases y with
    | nan => unfold Math.Max; simp [GoFloat.IsInf, GoFloat.IsNaN, maxTier, finKey]
    | inf t =>
      unfold Math.Max
      cases t <;>
        simp [GoFloat.IsInf, GoFloat.IsNaN, maxTier, finKey, GoFloat.isZero, GoFloat.feq,
          GoFloat.lt]
    | fin t n =>
      rw [Max_fin_fin]
      simp [maxTier, finKey]

theorem Min_rank (x y : GoFloat) :
    Math.Min x y =
      if minTier x < minTier y ∨ (minTier x = minTier y ∧ finKey x ≤ finKey y) then x else y := by
  cases x with
  | nan =>
    unfold Math.Min
    cases y with
    | nan => simp [GoFloat.IsInf, GoFloat.IsNaN]
    | inf t => cases t <;> simp [GoFloat.IsInf, GoFloat.IsNaN, minTier, finKey]
    | fin t n => simp [GoFloat.IsInf, GoFloat.IsNaN, minTier, finKey]
  | inf s =>
    unfold Math.Min
    cases y with
    | nan => cases s <;> simp [GoFloat.IsInf, GoFloat.IsNaN, minTier, finKey]
    | inf t =>
      cases s <;> cases t <;>
        simp [GoFloat.IsInf, GoFloat.IsNaN, minTier, finKey, GoFloat.isZero, GoFloat.feq,
          GoFloat.lt]
    | fin t n =>
      cases s <;>
        simp [GoFloat.IsInf, GoFloat.IsNaN, minTier, finKey, GoFloat.isZero, GoFloat.feq,
          GoFloat.lt]
  | fin s m =>
    cases y with
    | nan => unfold Math.Min; simp [GoFloat.IsInf, GoFloat.IsNaN, minTier, finKey]
    | inf t =>
      unfold Math.Min
      cases t <;>
        simp [GoFloat.IsInf, GoFloat.IsNaN, minTier, finKey, GoFloat.isZero, GoFloat.feq,
          GoFloat.lt]
    | fin t n =>
      rw [Min_fin_fin]
      simp [minTier, finKey]

theorem maxTier_finKey_inj (x y : GoFloat) (h1 : maxTier x = maxTier y)
    (h2 : finKey x = finKey y) : x = y := by
  cases x with
  | nan => cases y with
    | nan => rfl
    | inf t => cases t <;> simp [maxTier] at h1
    | fin t n => simp [maxTier] at h1
  | inf s => cases y with
    | nan => cases s <;> simp [maxTier] at h1
    | inf t => cases s <;> cases t <;> simp [maxTier] at h1 <;> rfl
    | fin t n => cases s <;> simp [maxTier] at h1
  | fin s m => cases y with
    | nan => simp [maxTier] at h1
    | inf t => cases t <;> simp [maxTier] at h1
    | fin t n =>
      have h3 : (if s then -2 * (m : Int) else 2 * (m : Int) + 1)
          = (if t then -2 * (n : Int) else 2 * (n : Int) + 1) := h2
      cases s <;> cases t
      · have h4 : 2 * (m : Int) + 1 = 2 * (n : Int) + 1 := h3
        have : m = n := by omega
        subst this; rfl
      · have h4 : 2 * (m : Int) + 1 = -2 * (n : Int) := h3
        omega
      · have h4 : -2 * (m : Int) = 2 * (n : Int) + 1 := h3
        omega
      · have h4 : -2 * (m : Int) = -2 * (n : Int) := h3
        have : m = n := by omega
        subst this; rfl

theorem minTier_finKey_inj (x y : GoFloat) (h1 : minTier x = minTier y)
    (h2 : finKey x = finKey y) : x = y := by
  cases x with
  | nan => cases y with
    | nan => rfl
    | inf t => cases t <;> simp [minTier] at h1
    | fin t n => simp [minTier] at h1
  | inf s => cases y with
    | nan => cases s <;> simp [minTier] at h1
    | inf t => cases s <;> cases t <;> simp [minTier] at h1 <;> rfl
    | fin t n => cases s <;> simp [minTier] at h1
  | fin s m => cases y with
    | nan => simp [minTier] at h1
    | inf t => cases t <;> simp [minTier] at h1
    | fin t n =>
      have h3 : (if s then -2 * (m : Int) else 2 * (m : Int) + 1)
          = (if t then -2 * (n : Int) else 2 * (n : Int) + 1) := h2
      cases s <;> cases t
      · have h4 : 2 * (m : Int) + 1 = 2 * (n : Int) + 1 := h3
        have : m = n := by omega
        subst this; rfl
      · have h4 : 2 * (m : Int) + 1 = -2 * (n : Int) := h3
        omega
      · have h4 : -2 * (m : Int) = 2 * (n : Int) + 1 := h3
        omega
      · have h4 : -2 * (m : Int) = -2 * (n : Int) := h3
        have : m = n := by omega
        subst this; rfl

theorem Max_right_comm (m a b : GoFloat) :
    Math.Max (Math.Max m a) b = Math.Max (Math.Max m b) a := by
  rw [Max_rank m a, Max_rank m b]
  split_ifs with h1 h2 h2 <;> rw [Max_rank, Max_rank] <;> split_ifs <;>
    first
    | rfl
    | (apply maxTier_finKey_inj <;> omega)

theorem Min_right_comm (m a b : GoFloat) :
    Math.Min (Math.Min m a) b = Math.Min (Math.Min m b) a := by
  rw [Min_rank m a, Min_rank m b]
  split_ifs with h1 h2 h2 <;> rw [Min_rank, Min_rank] <;> split_ifs <;>
    first
    | rfl
    | (apply minTier_finKey_inj <;> omega)

/-! ## `AddTemperature` -/

theorem isFloat32_Max (a b : Float32) : (Math.Max a.val b.val).isFloat32 = true := by
  rcases Max_eq_or a.val b.val with h | h <;> rw [h]
  · exact a.isFloat32
  · exact b.isFloat32

theorem isFloat32_Min (a b : Float32) : (Math.Min a.val b.val).isFloat32 = true := by
  rcases Min_eq_or a.val b.val with h | h <;> rw [h]
  · exact a.isFloat32
  · exact b.isFloat32

theorem AddTemperature_max_val (s : Stats) (v : Float32) :
    (s.AddTemperature v).max.val = Math.Max s.max.val v.val :=
  float32_eq_of_isFloat32 _ (isFloat32_Max s.max v)

theorem AddTemperature_min_val (s : Stats) (v : Float32) :
    (s.AddTemperature v).min.val = Math.Min s.min.val v.val :=
  float32_eq_of_isFloat32 _ (isFloat32_Min s.min v)

/-! ## Order independence of the fold -/

theorem addAll_nil (s : Stats) : s.addAll [] = s := rfl

theorem addAll_cons (s : Stats) (v : Float32) (vs : List Float32) :
    s.addAll (v :: vs) = (s.AddTemperature v).addAll vs := rfl

theorem addAll_append (s : Stats) (vs ws : List Float32) :
    s.addAll (vs ++ ws) = (s.addAll vs).addAll ws := by
  unfold Stats.addAll
  rw [List.foldl_append]

theorem addAll_min (s : Stats) (vs : List Float32) :
    (s.addAll vs).min =
      vs.foldl (fun m v => float32 (Math.Min (float64 m) (float64 v))) s.min := by
  induction vs generalizing s with
  | nil => rfl
  | cons v vs ih => rw [addAll_cons, ih]; rfl

theorem addAll_max (s : Stats) (vs : List Float32) :
    (s.addAll vs).max =
      vs.foldl (fun m v => float32 (Math.Max (float64 m) (float64 v))) s.max := by
  induction vs generalizing s with
  | nil => rfl
  | cons v vs ih => rw [addAll_cons, ih]; rfl

theorem addAll_sum (s : Stats) (vs : List Float32) :
    (s.addAll vs).sum = vs.foldl Float32.add s.sum := by
  induction vs generalizing s with
  | nil => rfl
  | cons v vs ih => rw [addAll_cons, ih]; rfl

theorem addAll_count (s : Stats) (vs : List Float32) :
    (s.addAll vs).count = vs.foldl (fun c _ => Float32.add c (Float32.ofNat 1)) s.count := by
  induction vs generalizing s with
  | nil => rfl
  | cons v vs ih => rw [addAll_cons, ih]; rfl

theorem minStep_right_comm (m a b : Float32) :
    float32 (Math.Min (float64 (float32 (Math.Min (float64 m) (float64 a)))) (float64 b)) =
    float32 (Math.Min (float64 (float32 (Math.Min (float64 m) (float64 b)))) (float64 a)) := by
  unfold float64
  rw [float32_eq_of_isFloat32 _ (isFloat32_Min m a), float32_eq_of_isFloat32 _ (isFloat32_Min m b),
    Min_right_comm]

theorem maxStep_right_comm (m a b : Float32) :
    float32 (Math.Max (float64 (float32 (Math.Max (float64 m) (float64 a)))) (float64 b)) =
    float32 (Math.Max (float64 (float32 (Math.Max (float64 m) (float64 b)))) (float64 a)) := by
  unfold float64
  rw [float32_eq_of_isFloat32 _ (isFloat32_Max m a), float32_eq_of_isFloat32 _ (isFloat32_Max m b),
    Max_right_comm]

theorem foldl_perm_of_right_comm {α β : Type} (f : β → α → β)
    (hf : ∀ b a1 a2, f (f b a1) a2 = f (f b a2) a1) {l1 l2 : List α} (h : l1.Perm l2) (b : β) :
    l1.foldl f b = l2.foldl f b := by
  induction h generalizing b with
  | nil => rfl
  | cons x _ ih => exact ih (f b x)
  | swap x y l => simp only [List.foldl_cons]; rw [hf]
  | trans _ _ ih1 ih2 => exact (ih1 b).trans (ih2 b)
theorem add_fin_fin (s t : Bool) (m n : Nat) :
    GoFloat.add (.fin s m) (.fin t n) =
      if s = t then .fin s (m + n)
      else if m = n then .fin false 0
      else if n < m then .fin s (m - n)
      else .fin t (n - m) := rfl

theorem numer_fin (s : Bool) (m : Nat) :
    (GoFloat.fin s m).numer = if s then -(m : Int) else (m : Int) := rfl

theorem isNegZero_fin (s : Bool) (m : Nat) :
    (GoFloat.fin s m).isNegZero = (s && decide (m = 0)) := rfl

theorem numer_add_fin (s t : Bool) (m n : Nat) :
    (GoFloat.add (.fin s m) (.fin t n)).numer = GoFloat.signed s m + GoFloat.signed t n := by
  rw [add_fin_fin]
  unfold GoFloat.signed
  cases s <;> cases t <;> simp only [if_true, if_false, Bool.false_eq_true, reduceCtorEq] <;>
    (try split_ifs) <;> simp only [numer_fin, if_true, if_false, Bool.false_eq_true] <;>
    (try push_cast) <;> omega

theorem isNegZero_add_fin (s t : Bool) (m n : Nat) :
    (GoFloat.add (.fin s m) (.fin t n)).isNegZero =
      ((GoFloat.fin s m).isNegZero && (GoFloat.fin t n).isNegZero) := by
  rw [add_fin_fin]
  cases s <;> cases t <;> simp only [if_true, if_false, Bool.false_eq_true, reduceCtorEq] <;>
    (try split_ifs) <;> simp [isNegZero_fin] <;> omega

theorem isFinite_add_fin (s t : Bool) (m n : Nat) :
    (GoFloat.add (.fin s m) (.fin t n)).isFinite = true := by
  rw [add_fin_fin]
  split_ifs <;> rfl

theorem eq_of_numer_isNegZero (x y : GoFloat) (hx : x.isFinite = true) (hy : y.isFinite = true)
    (h1 : x.numer = y.numer) (h2 : x.isNegZero = y.isNegZero) : x = y := by
  cases x with
  | nan => simp [GoFloat.isFinite] at hx
  | inf s => simp [GoFloat.isFinite] at hx
  | fin s m =>
    cases y with
    | nan => simp [GoFloat.isFinite] at hy
    | inf t => simp [GoFloat.isFinite] at hy
    | fin t n =>
      cases s <;> cases t <;> simp [GoFloat.numer, GoFloat.signed, GoFloat.isNegZero] at h1 h2 ⊢ <;>
        omega

theorem addIsExact_spec (a b : Float32) (h : Float32.addIsExact a b = true) :
    a.val.isFinite = true ∧ b.val.isFinite = true ∧ (Float32.add a b).val.isFinite = true ∧
    (Float32.add a b).val.numer = a.val.numer + b.val.numer ∧
    (Float32.add a b).val.isNegZero = (a.val.isNegZero && b.val.isNegZero) := by
  unfold Float32.addIsExact at h
  unfold Float32.add
  cases ha : a.val with
  | nan => rw [ha] at h; simp at h
  | inf s => rw [ha] at h; simp at h
  | fin s m =>
    cases hb : b.val with
    | nan => rw [ha, hb] at h; simp at h
    | inf t => rw [ha, hb] at h; simp at h
    | fin t n =>
      rw [ha, hb] at h
      have h2 : (GoFloat.add (.fin s m) (.fin t n)).isFloat32 = true := h
      rw [float32_eq_of_isFloat32 _ h2]
      exact ⟨rfl, rfl, isFinite_add_fin s t m n, numer_add_fin s t m n,
        isNegZero_add_fin s t m n⟩

theorem sumsExact_fold (vs : List Float32) (acc : Float32) (hacc : acc.val.isFinite = true)
    (h : sumsExact acc vs = true) :
    (vs.foldl Float32.add acc).val.isFinite = true ∧
    (vs.foldl Float32.add acc).val.numer = acc.val.numer + (vs.map (fun v => v.val.numer)).sum ∧
    (vs.foldl Float32.add acc).val.isNegZero =
      (acc.val.isNegZero && vs.all (fun v => v.val.isNegZero)) := by
  induction vs generalizing acc with
  | nil => simp [hacc]
  | cons v vs ih =>
    simp only [sumsExact, Bool.and_eq_true] at h
    obtain ⟨_, _, h3, h4, h5⟩ := addIsExact_spec acc v h.1
    obtain ⟨i1, i2, i3⟩ := ih (Float32.add acc v) h3 h.2
    simp only [List.foldl_cons, List.map_cons, List.sum_cons, List.all_cons]
    refine ⟨i1, ?_, ?_⟩
    · rw [i2, h4]; ring
    · rw [i3, h5, Bool.and_assoc]

theorem sumsExact_acc_finite (acc v : Float32) (vs : List Float32)
    (h : sumsExact acc (v :: vs) = true) : acc.val.isFinite = true := by
  simp only [sumsExact, Bool.and_eq_true] at h
  exact (addIsExact_spec acc v h.1).1

theorem sum_perm_of_exact (acc : Float32) (vs ws : List Float32) (h : vs.Perm ws)
    (hv : sumsExact acc vs = true) (hw : sumsExact acc ws = true) :
    vs.foldl Float32.add acc = ws.foldl Float32.add acc := by
  cases vs with
  | nil =>
    have : ws = [] := List.Perm.eq_nil (List.Perm.symm h)
    rw [this]
  | cons v vs =>
    have hacc := sumsExact_acc_finite acc v vs hv
    obtain ⟨a1, a2, a3⟩ := sumsExact_fold (v :: vs) acc hacc hv
    obtain ⟨b1, b2, b3⟩ := sumsExact_fold ws acc hacc hw
    apply Float32.ext_val
    apply eq_of_numer_isNegZero _ _ a1 b1
    · rw [a2, b2, List.Perm.sum_eq (List.Perm.map _ h)]
    · rw [a3, b3]
      congr 1
      rw [Bool.eq_iff_iff, List.all_eq_true, List.all_eq_true]
      constructor
      · intro hx x hxm; exact hx x ((List.Perm.mem_iff h).2 hxm)
      · intro hx x hxm; exact hx x ((List.Perm.mem_iff h).1 hxm)

theorem addAll_fields_perm (s : Stats) (vs ws : List Float32) (h : vs.Perm ws) :
    (s.addAll vs).min = (s.addAll ws).min ∧
    (s.addAll vs).max = (s.addAll ws).max ∧
    (s.addAll vs).count = (s.addAll ws).count ∧
    (sumsExact s.sum vs = true → sumsExact s.sum ws = true →
      (s.addAll vs).sum = (s.addAll ws).sum) := by
  refine ⟨?_, ?_, ?_, ?_⟩
  · rw [addAll_min, addAll_min]
    exact foldl_perm_of_right_comm _ minStep_right_comm h _
  · rw [addAll_max, addAll_max]
    exact foldl_perm_of_right_comm _ maxStep_right_comm h _
  · rw [addAll_count, addAll_count]
    exact foldl_perm_of_right_comm (fun c (_ : Float32) => Float32.add c (Float32.ofNat 1))
      (fun _ _ _ => rfl) h _
  · intro hv hw
    rw [addAll_sum, addAll_sum]
    exact sum_perm_of_exact s.sum vs ws h hv hw
/-! ## The `count` field -/

theorem isFloat32_ofNat (k : Nat) (h : k ≤ 2 ^ 24) : (GoFloat.ofNat k).isFloat32 = true := by
  unfold GoFloat.ofNat
  rw [isFloat32_fin_iff]
  have hp : (0 : Nat) < 2 ^ 149 := by positivity
  constructor
  · unfold overflow32
    have h1 : k < 2 ^ 128 := lt_of_le_of_lt h (by norm_num)
    exact Nat.mul_lt_mul_of_pos_right h1 hp
  · rcases Nat.lt_or_eq_of_le h with h1 | h1
    · have h2 : k * 2 ^ 149 < 2 ^ (24 + 149) := by
        rw [pow_add]; exact Nat.mul_lt_mul_of_pos_right h1 hp
      have h3 := bitLen_le_of_lt _ _ h2
      unfold quantum32
      apply Nat.mod_eq_zero_of_dvd
      exact Dvd.dvd.mul_left (pow_dvd_pow 2 (by omega)) k
    · subst h1
      have h2 : bitLen (2 ^ 24 * 2 ^ 149) = 173 + 1 :=
        bitLen_eq _ 173 (by rw [← pow_add]) (by rw [← pow_add]; exact Nat.pow_lt_pow_right (by norm_num) (by norm_num))
      unfold quantum32
      rw [h2]
      apply Nat.mod_eq_zero_of_dvd
      rw [← pow_add]
      exact pow_dvd_pow 2 (by norm_num)

theorem ofNat_val (k : Nat) (h : k ≤ 2 ^ 24) : (Float32.ofNat k).val = GoFloat.ofNat k :=
  float32_eq_of_isFloat32 _ (isFloat32_ofNat k h)

theorem add_ofNat_one (k : Nat) :
    GoFloat.add (GoFloat.ofNat k) (GoFloat.ofNat 1) = GoFloat.ofNat (k + 1) := by
  unfold GoFloat.ofNat
  rw [add_fin_fin, if_pos rfl, Nat.add_mul]

theorem ofNat_add_one (k : Nat) (h : k < 2 ^ 24) :
    Float32.add (Float32.ofNat k) (Float32.ofNat 1) = Float32.ofNat (k + 1) := by
  have h1 := ofNat_val k (Nat.le_of_lt h)
  have h2 := ofNat_val 1 (Nat.one_le_two_pow)
  unfold Float32.add
  rw [h1, h2, add_ofNat_one]
  rfl

theorem ofNat_saturated :
    Float32.add (Float32.ofNat (2 ^ 24)) (Float32.ofNat 1) = Float32.ofNat (2 ^ 24) := by
  decide

theorem count_fold (vs : List Float32) (k : Nat) (h : k ≤ 2 ^ 24) :
    vs.foldl (fun c _ => Float32.add c (Float32.ofNat 1)) (Float32.ofNat k) =
      Float32.ofNat (min (k + vs.length) (2 ^ 24)) := by
  induction vs generalizing k with
  | nil => rw [List.foldl_nil, List.length_nil, Nat.add_zero, Nat.min_eq_left h]
  | cons v vs ih =>
    rw [List.foldl_cons]
    rcases Nat.lt_or_eq_of_le h with h1 | h1
    · rw [ofNat_add_one k h1, ih (k + 1) (by omega), List.length_cons]
      congr 2; omega
    · subst h1
      rw [ofNat_saturated, ih (2 ^ 24) (Nat.le_refl _), List.length_cons]
      congr 1
      rw [Nat.min_eq_right (Nat.le_add_right _ _), Nat.min_eq_right (Nat.le_add_right _ _)]

theorem DefaultStats_addAll_count (vs : List Float32) :
    (DefaultStats.addAll vs).count.val = GoFloat.ofNat (min vs.length (2 ^ 24)) := by
  rw [addAll_count]
  have h := count_fold vs 0 (Nat.zero_le _)
  rw [Nat.zero_add] at h
  show (List.foldl (fun c _ => Float32.add c (Float32.ofNat 1)) (Float32.ofNat 0) vs).val = _
  rw [h]
  exact ofNat_val _ (Nat.min_le_right _ _)

/-! ## The map built by `combiner` -/

theorem get_set_same (m : StatsMap) (k : String) (v : Stats) : (m.set k v).get k = some v := by
  induction m with
  | nil => simp [StatsMap.set, StatsMap.get]
  | cons e rest ih =>
    obtain ⟨k1, w⟩ := e
    unfold StatsMap.set
    by_cases h : k1 = k
    · simp [h, StatsMap.get]
    · simp [h, StatsMap.get, ih]

theorem get_set_other (m : StatsMap) (k k2 : String) (v : Stats) (h : k ≠ k2) :
    (m.set k v).get k2 = m.get k2 := by
  induction m with
  | nil => simp [StatsMap.set, StatsMap.get, h]
  | cons e rest ih =>
    obtain ⟨k1, w⟩ := e
    unfold StatsMap.set
    by_cases h1 : k1 = k
    · subst h1
      simp [StatsMap.get, h]
    · simp only [h1, if_false, StatsMap.get, ih]

theorem keys_set (m : StatsMap) (k : String) (v : Stats) :
    (m.set k v).keys = if k ∈ m.keys then m.keys else m.keys ++ [k] := by
  induction m with
  | nil => simp [StatsMap.set, StatsMap.keys]
  | cons e rest ih =>
    obtain ⟨k1, w⟩ := e
    unfold StatsMap.set
    by_cases h1 : k1 = k
    · subst h1
      simp [StatsMap.keys]
    · have h2 : k ≠ k1 := fun h => h1 h.symm
      simp only [StatsMap.keys] at ih
      simp only [h1, if_false, StatsMap.keys, List.map_cons, List.mem_cons, h2, false_or, ih]
      split_ifs <;> simp

theorem get_isSome_iff (m : StatsMap) (k : String) : (m.get k).isSome = true ↔ k ∈ m.keys := by
  induction m with
  | nil => simp [StatsMap.get, StatsMap.keys]
  | cons e rest ih =>
    obtain ⟨k1, w⟩ := e
    unfold StatsMap.get
    by_cases h1 : k1 = k
    · simp [h1, StatsMap.keys]
    · have h2 : k ≠ k1 := fun h => h1 h.symm
      simp only [StatsMap.keys] at ih
      simp [h1, h2, StatsMap.keys, ih]

theorem tempsOf_append (c : String) (rs : List Record) (r : Record) :
    tempsOf c (rs ++ [r]) = if r.city = c then tempsOf c rs ++ [r.temperature] else tempsOf c rs := by
  unfold tempsOf
  rw [List.filter_append, List.map_append]
  by_cases h : r.city = c <;> simp [h, List.filter]

theorem combiner_append (rs : List Record) (r : Record) :
    combiner .live (rs ++ [r]) = multiplexerStep .live (combiner .live rs) r := by
  unfold combiner
  rw [List.foldl_append]
  rfl

theorem multiplexerStep_live (m : StatsMap) (r : Record) :
    multiplexerStep .live m r =
      m.set r.city (((m.get r.city).getD DefaultStats).AddTemperature r.temperature) := by
  unfold multiplexerStep
  cases m.get r.city <;> rfl

/-- The entry of a city in the map `combiner` returns: none when no record carries
the city, and otherwise the default `Stats` with the city's temperatures folded in
in schedule order. -/
theorem combiner_get (rs : List Record) (c : String) :
    (combiner .live rs).get c =
      if tempsOf c rs = [] then none else some (DefaultStats.addAll (tempsOf c rs)) := by
  induction rs using List.reverseRecOn with
  | nil => rfl
  | append_singleton rs r ih =>
    rw [combiner_append, tempsOf_append, multiplexerStep_live]
    by_cases hc : r.city = c
    · subst hc
      rw [if_pos rfl, get_set_same, ih]
      by_cases hne : tempsOf r.city rs = []
      · rw [if_pos hne, hne]
        simp [Stats.addAll]
      · rw [if_neg hne, addAll_append]
        simp [Stats.addAll]
    · rw [if_neg hc, get_set_other _ _ _ _ hc, ih]

theorem keys_nodup_set (m : StatsMap) (k : String) (v : Stats) (h : m.keys.Nodup) :
    (m.set k v).keys.Nodup := by
  rw [keys_set]
  split_ifs with hk
  · exact h
  · rw [List.nodup_append]
    refine ⟨h, List.nodup_singleton k, ?_⟩
    intro a ha hb
    rw [List.mem_singleton] at hb
    subst hb
    exact hk ha

theorem combiner_keys_nodup (rs : List Record) : (combiner .live rs).keys.Nodup := by
  induction rs using List.reverseRecOn with
  | nil => exact List.nodup_nil
  | append_singleton rs r ih =>
    rw [combiner_append, multiplexerStep_live]
    exact keys_nodup_set _ _ _ ih

theorem tempsOf_ne_nil_iff (c : String) (rs : List Record) :
    tempsOf c rs ≠ [] ↔ ∃ r ∈ rs, r.city = c := by
  unfold tempsOf
  rw [Ne, List.map_eq_nil_iff, List.filter_eq_nil_iff]
  simp

theorem combiner_mem_keys (rs : List Record) (c : String) :
    c ∈ (combiner .live rs).keys ↔ ∃ r ∈ rs, r.city = c := by
  rw [← get_isSome_iff, combiner_get, ← tempsOf_ne_nil_iff]
  split_ifs with h <;> simp [h]

theorem tempsOf_length (c : String) (rs : List Record) :
    (tempsOf c rs).length = rs.countP (fun r => decide (r.city = c)) := by
  unfold tempsOf
  rw [List.length_map, List.countP_eq_length_filter]
theorem flatten_eq_nil_of_all_nil (inputs : List (List Record)) (h : ∀ q ∈ inputs, q = []) :
    inputs.flatten = [] := by
  induction inputs with
  | nil => rfl
  | cons q qs ih =>
    rw [List.flatten_cons, h q (List.mem_cons_self _ _), List.nil_append]
    exact ih (fun q1 hq => h q1 (List.mem_cons_of_mem _ hq))

theorem Interleaving.perm {inputs : List (List Record)} {schedule : List Record}
    (h : Interleaving inputs schedule) : schedule.Perm inputs.flatten := by
  induction h with
  | nil inputs hnil => rw [flatten_eq_nil_of_all_nil inputs hnil]
  | cons pre post q r schedule _ ih =>
    rw [List.flatten_append, List.flatten_cons, List.cons_append]
    rw [List.flatten_append, List.flatten_cons] at ih
    exact (List.Perm.cons r ih).trans List.perm_middle.symm

theorem countP_city_perm {l1 l2 : List Record} (h : l1.Perm l2) (c : String) :
    l1.countP (fun r => decide (r.city = c)) = l2.countP (fun r => decide (r.city = c)) :=
  List.Perm.countP_eq _ h

theorem combiner_count_val (rs : List Record) (c : String) (st : Stats)
    (h : (combiner .live rs).get c = some st) :
    st.count.val = GoFloat.ofNat (min (rs.countP (fun r => decide (r.city = c))) (2 ^ 24)) := by
  rw [combiner_get] at h
  split_ifs at h with hn
  injection h with h
  rw [← h, DefaultStats_addAll_count, tempsOf_length]

/-- Claim C1, as amended.  For every order in which the records of the input
queues enter the critical section, the map `combiner` returns has exactly one entry
for each distinct city among the records and no other entry, and the `count` of an
entry is the number of records carrying the city, capped at `2²⁴ = 16777216`
(the largest count a `float32` incremented by one can reach). -/
theorem combiner_entries (inputs : List (List Record)) (schedule : List Record)
    (h : Interleaving inputs schedule) :
    (combiner .live schedule).keys.Nodup ∧
    (∀ c, c ∈ (combiner .live schedule).keys ↔ ∃ r ∈ inputs.flatten, r.city = c) ∧
    (combiner .live schedule).length = ((inputs.flatten.map (fun r => r.city)).dedup).length ∧
    (∀ c st, (combiner .live schedule).get c = some st →
      st.count.val =
        GoFloat.ofNat (min (inputs.flatten.countP (fun r => decide (r.city = c))) (2 ^ 24))) := by
  have hp := h.perm
  have hmem : ∀ c, c ∈ (combiner .live schedule).keys ↔ ∃ r ∈ inputs.flatten, r.city = c := by
    intro c
    rw [combiner_mem_keys]
    constructor
    · rintro ⟨r, hr, hc⟩; exact ⟨r, (List.Perm.mem_iff hp).1 hr, hc⟩
    · rintro ⟨r, hr, hc⟩; exact ⟨r, (List.Perm.mem_iff hp).2 hr, hc⟩
  refine ⟨combiner_keys_nodup schedule, hmem, ?_, ?_⟩
  · have hperm : (combiner .live schedule).keys.Perm ((inputs.flatten.map (fun r => r.city)).dedup) := by
      rw [List.perm_ext_iff_of_nodup (combiner_keys_nodup schedule) (List.nodup_dedup _)]
      intro c
      rw [hmem, List.mem_dedup, List.mem_map]
    have := hperm.length_eq
    simpa [StatsMap.keys] using this
  · intro c st hst
    rw [combiner_count_val schedule c st hst, countP_city_perm hp]

theorem tempsOf_replicate (n : Nat) (r : Record) :
    tempsOf r.city (List.replicate n r) = List.replicate n r.temperature := by
  induction n with
  | zero => rfl
  | succ n ih =>
    rw [List.replicate_succ, List.replicate_succ]
    unfold tempsOf at ih ⊢
    rw [List.filter_cons_of_pos (by simp), List.map_cons, ih]

theorem combiner_replicate (n : Nat) (r : Record) (hn : 2 ^ 24 ≤ n) :
    ∃ st, (combiner .live (List.replicate n r)).get r.city = some st ∧
      st.count.val = GoFloat.ofNat (2 ^ 24) := by
  have hne : tempsOf r.city (List.replicate n r) ≠ [] := by
    rw [tempsOf_replicate]
    intro h
    have h1 := congrArg List.length h
    rw [List.length_replicate, List.length_nil] at h1
    have : 0 < 2 ^ 24 := Nat.two_pow_pos 24
    omega
  refine ⟨DefaultStats.addAll (tempsOf r.city (List.replicate n r)), ?_, ?_⟩
  · rw [combiner_get, if_neg hne]
  · rw [DefaultStats_addAll_count, tempsOf_replicate, List.length_replicate, Nat.min_eq_right hn]

theorem countP_replicate_city (n : Nat) (r : Record) :
    (List.replicate n r).countP (fun x => decide (x.city = r.city)) = n := by
  induction n with
  | zero => rfl
  | succ n ih => rw [List.replicate_succ, List.countP_cons_of_pos _ _ (by simp), ih]

theorem ofNat_injective (a b : Nat) (h : GoFloat.ofNat a = GoFloat.ofNat b) : a = b := by
  unfold GoFloat.ofNat at h
  injection h with _ h
  exact Nat.eq_of_mul_eq_mul_right (Nat.two_pow_pos 149) h

/-- Claim C1, counterexample.  After `16777218` records of one city the entry's
`count` is `16777216`, not the number of records. -/
theorem combiner_count_saturates :
    (List.replicate 16777218 (Record.mk "Adana" (Float32.ofNat 0))).countP
        (fun x => decide (x.city = "Adana")) = 16777218 ∧
    ∃ st, (combiner .live (List.replicate 16777218 (Record.mk "Adana" (Float32.ofNat 0)))).get
        "Adana" = some st ∧
      st.count.val = GoFloat.ofNat 16777216 ∧
      st.count.val ≠ GoFloat.ofNat 16777218 := by
  refine ⟨countP_replicate_city 16777218 (Record.mk "Adana" (Float32.ofNat 0)), ?_⟩
  obtain ⟨st, h1, h2⟩ := combiner_replicate 16777218 (Record.mk "Adana" (Float32.ofNat 0))
    (by norm_num)
  refine ⟨st, h1, h2, ?_⟩
  rw [h2]
  intro h
  have := ofNat_injective _ _ h
  norm_num at this

/-- Claim C1, instance: two queues, three records, one interleaving. -/
theorem combiner_entries_witness :
    Interleaving
      [[Record.mk "Adana" (Float32.ofNat 3), Record.mk "Bursa" (Float32.ofNat 5)],
       [Record.mk "Adana" (Float32.ofNat 7)]]
      [Record.mk "Adana" (Float32.ofNat 3), Record.mk "Adana" (Float32.ofNat 7),
       Record.mk "Bursa" (Float32.ofNat 5)] ∧
    (combiner .live
      [Record.mk "Adana" (Float32.ofNat 3), Record.mk "Adana" (Float32.ofNat 7),
       Record.mk "Bursa" (Float32.ofNat 5)]).length = 2 ∧
    ∀ st, (combiner .live
      [Record.mk "Adana" (Float32.ofNat 3), Record.mk "Adana" (Float32.ofNat 7),
       Record.mk "Bursa" (Float32.ofNat 5)]).get "Adana" = some st →
      st.count.val = GoFloat.ofNat 2 := by
  have hi : Interleaving
      [[Record.mk "Adana" (Float32.ofNat 3), Record.mk "Bursa" (Float32.ofNat 5)],
       [Record.mk "Adana" (Float32.ofNat 7)]]
      [Record.mk "Adana" (Float32.ofNat 3), Record.mk "Adana" (Float32.ofNat 7),
       Record.mk "Bursa" (Float32.ofNat 5)] :=
    Interleaving.cons [] [[Record.mk "Adana" (Float32.ofNat 7)]]
      [Record.mk "Bursa" (Float32.ofNat 5)] (Record.mk "Adana" (Float32.ofNat 3)) _
      (Interleaving.cons [[Record.mk "Bursa" (Float32.ofNat 5)]] [] []
        (Record.mk "Adana" (Float32.ofNat 7)) _
        (Interleaving.cons [] [[]] [] (Record.mk "Bursa" (Float32.ofNat 5)) _
          (Interleaving.nil [[], []] (by simp))))
  have h := combiner_entries _ _ hi
  refine ⟨hi, ?_, ?_⟩
  · rw [h.2.2.1]; decide
  · intro st hst
    rw [h.2.2.2 "Adana" st hst]; decide

/-! ## Order facts: `min <= max` -/

theorem le_iff_maxTier (a b : GoFloat) (ha : a.IsNaN = false) (hb : b.IsNaN = false) :
    GoFloat.le a b = true ↔
      maxTier a < maxTier b ∨ (maxTier a = maxTier b ∧ a.numer ≤ b.numer) := by
  cases a with
  | nan => simp [GoFloat.IsNaN] at ha
  | inf s =>
    cases b with
    | nan => simp [GoFloat.IsNaN] at hb
    | inf t => cases s <;> cases t <;> simp [GoFloat.le, maxTier, GoFloat.numer]
    | fin t n => cases s <;> simp [GoFloat.le, maxTier, GoFloat.numer]
  | fin s m =>
    cases b with
    | nan => simp [GoFloat.IsNaN] at hb
    | inf t => cases t <;> simp [GoFloat.le, maxTier, GoFloat.numer]
    | fin t n => simp [GoFloat.le, maxTier, GoFloat.numer]

theorem numer_le_of_finKey_le (a b : GoFloat) (h : finKey a ≤ finKey b) : a.numer ≤ b.numer := by
  cases a with
  | nan =>
    cases b with
    | nan => simp [GoFloat.numer]
    | inf t => simp [GoFloat.numer]
    | fin t n =>
      cases t <;> simp only [finKey, GoFloat.numer, GoFloat.signed, if_true, if_false,
        Bool.false_eq_true] at h ⊢ <;> omega
  | inf s =>
    cases b with
    | nan => simp [GoFloat.numer]
    | inf t => simp [GoFloat.numer]
    | fin t n =>
      cases t <;> simp only [finKey, GoFloat.numer, GoFloat.signed, if_true, if_false,
        Bool.false_eq_true] at h ⊢ <;> omega
  | fin s m =>
    cases b with
    | nan =>
      cases s <;> simp only [finKey, GoFloat.numer, GoFloat.signed, if_true, if_false,
        Bool.false_eq_true] at h ⊢ <;> omega
    | inf t =>
      cases s <;> simp only [finKey, GoFloat.numer, GoFloat.signed, if_true, if_false,
        Bool.false_eq_true] at h ⊢ <;> omega
    | fin t n =>
      cases s <;> cases t <;> simp only [finKey, GoFloat.numer, GoFloat.signed, if_true, if_false,
        Bool.false_eq_true] at h ⊢ <;> omega

theorem minTier_lt_iff (a b : GoFloat) (ha : a.IsNaN = false) (hb : b.IsNaN = false) :
    (minTier a < minTier b ↔ maxTier a < maxTier b) ∧
    (minTier a = minTier b ↔ maxTier a = maxTier b) := by
  cases a with
  | nan => simp [GoFloat.IsNaN] at ha
  | inf s =>
    cases b with
    | nan => simp [GoFloat.IsNaN] at hb
    | inf t => cases s <;> cases t <;> simp [minTier, maxTier]
    | fin t n => cases s <;> simp [minTier, maxTier]
  | fin s m =>
    cases b with
    | nan => simp [GoFloat.IsNaN] at hb
    | inf t => cases t <;> simp [minTier, maxTier]
    | fin t n => simp [minTier, maxTier]

theorem IsNaN_Max (x y : GoFloat) (hx : x.IsNaN = false) (hy : y.IsNaN = false) :
    (Math.Max x y).IsNaN = false := by
  rcases Max_eq_or x y with h | h <;> rw [h] <;> assumption

theorem IsNaN_Min (x y : GoFloat) (hx : x.IsNaN = false) (hy : y.IsNaN = false) :
    (Math.Min x y).IsNaN = false := by
  rcases Min_eq_or x y with h | h <;> rw [h] <;> assumption

theorem le_Max (x y : GoFloat) (hx : x.IsNaN = false) (hy : y.IsNaN = false) :
    GoFloat.le x (Math.Max x y) = true ∧ GoFloat.le y (Math.Max x y) = true := by
  have h1 := numer_le_of_finKey_le x y
  have h2 := numer_le_of_finKey_le y x
  rw [Max_rank]
  split_ifs with h
  · rw [le_iff_maxTier x x hx hx, le_iff_maxTier y x hy hx]
    omega
  · rw [le_iff_maxTier x y hx hy, le_iff_maxTier y y hy hy]
    omega

theorem Min_le (x y : GoFloat) (hx : x.IsNaN = false) (hy : y.IsNaN = false) :
    GoFloat.le (Math.Min x y) x = true ∧ GoFloat.le (Math.Min x y) y = true := by
  have h1 := numer_le_of_finKey_le x y
  have h2 := numer_le_of_finKey_le y x
  obtain ⟨h3, h4⟩ := minTier_lt_iff x y hx hy
  obtain ⟨h5, h6⟩ := minTier_lt_iff y x hy hx
  rw [Min_rank]
  split_ifs with h
  · rw [le_iff_maxTier x x hx hx, le_iff_maxTier x y hx hy]
    omega
  · rw [le_iff_maxTier y x hy hx, le_iff_maxTier y y hy hy]
    omega

theorem le_trans_of_not_nan (a b c : GoFloat) (ha : a.IsNaN = false) (hb : b.IsNaN = false)
    (hc : c.IsNaN = false) (h1 : GoFloat.le a b = true) (h2 : GoFloat.le b c = true) :
    GoFloat.le a c = true := by
  rw [le_iff_maxTier a b ha hb] at h1
  rw [le_iff_maxTier b c hb hc] at h2
  rw [le_iff_maxTier a c ha hc]
  omega

/-! ## The entries of the map: `count >= 1`, `min <= max` -/

theorem AddTemperature_le (s : Stats) (v : Float32) (h1 : s.min.val.IsNaN = false)
    (h2 : s.max.val.IsNaN = false) (h3 : GoFloat.le s.min.val s.max.val = true)
    (hv : v.val.IsNaN = false) :
    (s.AddTemperature v).min.val.IsNaN = false ∧ (s.AddTemperature v).max.val.IsNaN = false ∧
    GoFloat.le (s.AddTemperature v).min.val (s.AddTemperature v).max.val = true := by
  rw [AddTemperature_min_val, AddTemperature_max_val]
  have a1 := IsNaN_Min _ _ h1 hv
  have a2 := IsNaN_Max _ _ h2 hv
  refine ⟨a1, a2, ?_⟩
  have b1 := (Min_le _ _ h1 hv).1
  have b2 := (le_Max _ _ h2 hv).1
  exact le_trans_of_not_nan _ _ _ a1 h1 a2 b1 (le_trans_of_not_nan _ _ _ h1 h2 a2 h3 b2)

theorem addAll_le (vs : List Float32) (s : Stats) (h1 : s.min.val.IsNaN = false)
    (h2 : s.max.val.IsNaN = false) (h3 : GoFloat.le s.min.val s.max.val = true)
    (hv : ∀ v ∈ vs, v.val.IsNaN = false) :
    GoFloat.le (s.addAll vs).min.val (s.addAll vs).max.val = true := by
  induction vs generalizing s with
  | nil => exact h3
  | cons v vs ih =>
    rw [addAll_cons]
    obtain ⟨a1, a2, a3⟩ := AddTemperature_le s v h1 h2 h3 (hv v (List.mem_cons_self _ _))
    exact ih _ a1 a2 a3 (fun w hw => hv w (List.mem_cons_of_mem _ hw))

theorem DefaultStats_min_val : DefaultStats.min.val = MaxFloat32 := by decide

theorem DefaultStats_max_val : DefaultStats.max.val = MinFloat32 := by decide

theorem DefaultStats_first_le (v : Float32) (hv : v.val.IsNaN = false) :
    (DefaultStats.AddTemperature v).min.val.IsNaN = false ∧
    (DefaultStats.AddTemperature v).max.val.IsNaN = false ∧
    GoFloat.le (DefaultStats.AddTemperature v).min.val (DefaultStats.AddTemperature v).max.val
      = true := by
  rw [AddTemperature_min_val, AddTemperature_max_val, DefaultStats_min_val, DefaultStats_max_val]
  have n1 : MaxFloat32.IsNaN = false := rfl
  have n2 : MinFloat32.IsNaN = false := rfl
  have a1 := IsNaN_Min _ _ n1 hv
  have a2 := IsNaN_Max _ _ n2 hv
  refine ⟨a1, a2, ?_⟩
  exact le_trans_of_not_nan _ _ _ a1 hv a2 (Min_le _ _ n1 hv).2 (le_Max _ _ n2 hv).2

theorem DefaultStats_addAll_le (vs : List Float32) (hne : vs ≠ [])
    (hv : ∀ v ∈ vs, v.val.IsNaN = false) :
    GoFloat.le (DefaultStats.addAll vs).min.val (DefaultStats.addAll vs).max.val = true := by
  cases vs with
  | nil => exact absurd rfl hne
  | cons v vs =>
    rw [addAll_cons]
    obtain ⟨a1, a2, a3⟩ := DefaultStats_first_le v (hv v (List.mem_cons_self _ _))
    exact addAll_le vs _ a1 a2 a3 (fun w hw => hv w (List.mem_cons_of_mem _ hw))

theorem mem_tempsOf (c : String) (rs : List Record) (v : Float32) (h : v ∈ tempsOf c rs) :
    ∃ r ∈ rs, r.city = c ∧ r.temperature = v := by
  unfold tempsOf at h
  rw [List.mem_map] at h
  obtain ⟨r, hr, hv⟩ := h
  rw [List.mem_filter] at hr
  exact ⟨r, hr.1, by simpa using hr.2, hv⟩

theorem one_le_ofNat (k : Nat) (h : 1 ≤ k) :
    GoFloat.le (GoFloat.ofNat 1) (GoFloat.ofNat k) = true ∧
    GoFloat.isZero (GoFloat.ofNat k) = false := by
  have hp : 0 < 2 ^ 149 := Nat.two_pow_pos 149
  have h1 : 1 * 2 ^ 149 ≤ k * 2 ^ 149 := Nat.mul_le_mul_right _ h
  have h2 : k * 2 ^ 149 ≠ 0 := by
    have : 0 < k * 2 ^ 149 := Nat.mul_pos h hp
    omega
  unfold GoFloat.ofNat GoFloat.isZero
  constructor
  · show decide (GoFloat.signed false (1 * 2 ^ 149) ≤ GoFloat.signed false (k * 2 ^ 149)) = true
    rw [decide_eq_true_eq]
    show ((1 * 2 ^ 149 : Nat) : Int) ≤ ((k * 2 ^ 149 : Nat) : Int)
    exact Int.ofNat_le.2 h1
  · show decide (GoFloat.signed false (k * 2 ^ 149) = GoFloat.signed false 0) = false
    rw [decide_eq_false_iff_not]
    show ¬ (((k * 2 ^ 149 : Nat) : Int) = ((0 : Nat) : Int))
    intro h3
    exact h2 (Int.ofNat_inj.1 h3)

/-- Claim C9, as amended.  After any number of records has been folded in, every
entry of the map has `count >= 1`, so `count` is not zero and the mean
`sum / count` does not divide by zero; and an entry into which no NaN temperature
was folded has `min <= max`. -/
theorem combiner_entry_invariant (schedule : List Record) (n : Nat) (c : String) (st : Stats)
    (h : (combiner .live (schedule.take n)).get c = some st) :
    GoFloat.le (GoFloat.ofNat 1) st.count.val = true ∧
    GoFloat.isZero st.count.val = false ∧
    ((∀ r ∈ schedule.take n, r.city = c → r.temperature.val.IsNaN = false) →
      Float32.le st.min st.max = true) := by
  have hc := combiner_count_val _ c st h
  rw [combiner_get] at h
  split_ifs at h with hn
  injection h with h
  have hlen : 1 ≤ (schedule.take n).countP (fun r => decide (r.city = c)) := by
    rw [← tempsOf_length]
    exact List.length_pos.2 hn
  have hk : 1 ≤ min ((schedule.take n).countP (fun r => decide (r.city = c))) (2 ^ 24) :=
    Nat.le_min.2 ⟨hlen, Nat.one_le_two_pow⟩
  rw [hc]
  refine ⟨(one_le_ofNat _ hk).1, (one_le_ofNat _ hk).2, ?_⟩
  intro hnan
  rw [← h]
  show GoFloat.le _ _ = true
  apply DefaultStats_addAll_le _ hn
  intro v hv
  obtain ⟨r, hr, hrc, hrv⟩ := mem_tempsOf c _ v hv
  rw [← hrv]
  exact hnan r hr hrc

/-- Claim C9, counterexample.  The line `"Adana;NaN"` parses to a record with a NaN
temperature, and one such record leaves an entry whose `min` and `max` are both
NaN, so `min <= max` is false. -/
theorem combiner_nan_entry :
    processLine Strconv.parseDecimal "Adana;NaN" =
      .ok ({ city := "Adana", temperature := float32 .nan }, none) ∧
    ∃ st, (combiner .live [Record.mk "Adana" (float32 .nan)]).get "Adana" = some st ∧
      st.min.val = .nan ∧ st.max.val = .nan ∧ Float32.le st.min st.max = false :=
  ⟨by decide,
   DefaultStats.AddTemperature (float32 .nan), by decide, by decide, by decide, by decide⟩

/-- Claim C9, instance: two records of one city, looked at after both. -/
theorem combiner_entry_invariant_witness :
    (combiner .live
      ([Record.mk "Adana" (Float32.ofNat 3), Record.mk "Adana" (Float32.ofNat 7)].take 2)).get
        "Adana" =
      some ((DefaultStats.AddTemperature (Float32.ofNat 3)).AddTemperature (Float32.ofNat 7)) ∧
    GoFloat.le (GoFloat.ofNat 1)
      ((DefaultStats.AddTemperature (Float32.ofNat 3)).AddTemperature (Float32.ofNat 7)).count.val
      = true :=
  ⟨by decide,
   (combiner_entry_invariant
      [Record.mk "Adana" (Float32.ofNat 3), Record.mk "Adana" (Float32.ofNat 7)] 2 "Adana" _
      (by decide)).1⟩

/-! ## The sentinels of `DefaultStats` -/

/-- Claim C8, evaluation at the failing inputs.  The line `"Adana;20000000"` parses
to the value `20000000`; folding that single value into `DefaultStats()` leaves
`min` at the sentinel `1<<24 - 1`, and folding `-20000000` leaves `max` at the
sentinel `-(1<<24 - 1)`: the sentinels are not the extreme `float32` values, so
they show up in the result. -/
theorem sentinel_in_result :
    processLine Strconv.parseDecimal "Adana;20000000" =
      .ok ({ city := "Adana", temperature := Float32.ofNat 20000000 }, none) ∧
    (Float32.ofNat 20000000).val = GoFloat.ofNat 20000000 ∧
    (DefaultStats.addAll [Float32.ofNat 20000000]).min.val = GoFloat.ofNat 16777215 ∧
    (DefaultStats.addAll [Float32.ofNat 20000000]).max.val = GoFloat.ofNat 20000000 ∧
    (float32 (GoFloat.negOfNat 20000000)).val = GoFloat.negOfNat 20000000 ∧
    (DefaultStats.addAll [float32 (GoFloat.negOfNat 20000000)]).max.val
      = GoFloat.negOfNat 16777215 ∧
    (DefaultStats.addAll [float32 (GoFloat.negOfNat 20000000)]).min.val
      = GoFloat.negOfNat 20000000 := by
  decide

/-! ## `processLine` -/

theorem splitChars_cons (sep c : Char) (cs : List Char) :
    Strings.splitChars sep (c :: cs) =
      if c = sep then [] :: Strings.splitChars sep cs
      else
        match Strings.splitChars sep cs with
        | [] => [[c]]
        | f :: fs => (c :: f) :: fs := rfl

theorem splitChars_of_not_mem (sep : Char) (cs : List Char) (h : sep ∉ cs) :
    Strings.splitChars sep cs = [cs] := by
  induction cs with
  | nil => rfl
  | cons c cs ih =>
    have h1 : c ≠ sep := fun e => h (e ▸ List.mem_cons_self _ _)
    have h2 : sep ∉ cs := fun e => h (List.mem_cons_of_mem _ e)
    rw [splitChars_cons, if_neg h1, ih h2]

theorem splitChars_append (sep : Char) (a b : List Char) (h : sep ∉ a) :
    Strings.splitChars sep (a ++ sep :: b) = a :: Strings.splitChars sep b := by
  induction a with
  | nil => rw [List.nil_append, splitChars_cons, if_pos rfl]
  | cons c cs ih =>
    have h1 : c ≠ sep := fun e => h (e ▸ List.mem_cons_self _ _)
    have h2 : sep ∉ cs := fun e => h (List.mem_cons_of_mem _ e)
    rw [List.cons_append, splitChars_cons, if_neg h1, ih h2]

theorem Split_no_delimiter (line : String) (h : ';' ∉ line.data) :
    Strings.Split line ';' = [line] := by
  unfold Strings.Split
  rw [splitChars_of_not_mem _ _ h]
  rfl

theorem Split_two (key value : String) (hk : ';' ∉ key.data) (hv : ';' ∉ value.data) :
    Strings.Split (key ++ ";" ++ value) ';' = [key, value] := by
  unfold Strings.Split
  have : (key ++ ";" ++ value).data = key.data ++ ';' :: value.data := by
    simp [String.data_append]
  rw [this, splitChars_append _ _ _ hk, splitChars_of_not_mem _ _ hv]
  rfl

theorem processLine_of_fields (pf : String → GoFloat × Option Strconv.NumError) (line : String)
    (city field : String) (more : List String)
    (h : Strings.Split line ';' = city :: field :: more) :
    (∀ temp, pf field = (temp, none) →
      processLine pf line = .ok ({ city := city, temperature := float32 temp }, none)) ∧
    (∀ temp err, pf field = (temp, some err) →
      processLine pf line = .ok (Record.zero, some err)) := by
  unfold processLine
  simp only [h, List.getElem?_cons_zero, List.getElem?_cons_succ]
  constructor
  · intro temp ht
    rw [ht]
  · intro temp err ht
    rw [ht]

/-- Claim C4.  For a line `key;value` with exactly one `;`, `processLine` returns
the record `{city: key, temperature: v}` and no error when the value text parses
as `v`, and the empty record together with the parse error when it does not. -/
theorem processLine_two_fields (pf : String → GoFloat × Option Strconv.NumError)
    (key value : String) (hk : ';' ∉ key.data) (hv : ';' ∉ value.data) :
    (∀ temp, pf value = (temp, none) →
      processLine pf (key ++ ";" ++ value) =
        .ok ({ city := key, temperature := float32 temp }, none)) ∧
    (∀ temp err, pf value = (temp, some err) →
      processLine pf (key ++ ";" ++ value) = .ok (Record.zero, some err)) := by
  exact processLine_of_fields pf _ key value [] (Split_two key value hk hv)

/-- Claim C4, instances: `"Adana;23.4"` gives `{Adana, 23.4}` (the `float32`
nearest to 23.4 is `12268339 · 2⁻¹⁹`), and `"Adana;abc"` gives a syntax error and
the empty record. -/
theorem processLine_two_fields_witness :
    ';' ∉ "Adana".data ∧ ';' ∉ "23.4".data ∧ ';' ∉ "abc".data ∧
    processLine Strconv.parseDecimal "Adana;23.4" =
      .ok ({ city := "Adana", temperature := float32 (.fin false (12268339 * 2 ^ 130)) }, none) ∧
    processLine Strconv.parseDecimal "Adana;abc" =
      .ok (Record.zero, some ⟨"ParseFloat", "abc", .ErrSyntax⟩) :=
  ⟨by decide, by decide, by decide,
   (processLine_two_fields Strconv.parseDecimal "Adana" "23.4" (by decide) (by decide)).1
     (.fin false (12268339 * 2 ^ 130)) (by decide),
   (processLine_two_fields Strconv.parseDecimal "Adana" "abc" (by decide) (by decide)).2
     (.fin false 0) ⟨"ParseFloat", "abc", .ErrSyntax⟩ (by decide)⟩

/-- Claim C5, evaluation at the failing inputs.  On a line without `;` the index
expression `infos[1]` is out of range: `processLine` panics, whatever the parse
function, instead of returning an error. -/
theorem processLine_no_delimiter_panics (pf : String → GoFloat × Option Strconv.NumError) :
    processLine pf "Adana" = .error (.indexOutOfRange 1 1) ∧
    processLine pf "" = .error (.indexOutOfRange 1 1) := by
  constructor <;> rfl

theorem processLine_without_delimiter (pf : String → GoFloat × Option Strconv.NumError)
    (line : String) (h : ';' ∉ line.data) :
    processLine pf line = .error (.indexOutOfRange 1 1) := by
  unfold processLine
  simp only [Split_no_delimiter line h]
  rfl

/-- Claim C6, as amended.  `processLine` reads the first two fields and ignores
the rest: for a line that splits into more than two fields it returns the record
of the first two fields, without error, when the second field parses, and the
empty record with the parse error when it does not. -/
theorem processLine_extra_fields (pf : String → GoFloat × Option Strconv.NumError)
    (line city field : String) (more : List String)
    (h : Strings.Split line ';' = city :: field :: more) (_hmore : more ≠ []) :
    (∀ temp, pf field = (temp, none) →
      processLine pf line = .ok ({ city := city, temperature := float32 temp }, none)) ∧
    (∀ temp err, pf field = (temp, some err) →
      processLine pf line = .ok (Record.zero, some err)) := by
  exact processLine_of_fields pf line city field more h

/-- Claim C6, counterexample.  The line `"Adana;23.4;7"` has three fields, and
`processLine` returns the record `{Adana, 23.4}` without error. -/
theorem processLine_three_fields :
    Strings.Split "Adana;23.4;7" ';' = ["Adana", "23.4", "7"] ∧
    processLine Strconv.parseDecimal "Adana;23.4;7" =
      .ok ({ city := "Adana", temperature := float32 (.fin false (12268339 * 2 ^ 130)) },
        none) := by
  constructor <;> decide

/-- Claim C6, instance: `"Adana;23.4;7"` and `"Adana;abc;7"`. -/
theorem processLine_extra_fields_witness :
    Strings.Split "Adana;abc;7" ';' = ["Adana", "abc", "7"] ∧ ["7"] ≠ [] ∧
    processLine Strconv.parseDecimal "Adana;abc;7" =
      .ok (Record.zero, some ⟨"ParseFloat", "abc", .ErrSyntax⟩) :=
  ⟨by decide, by decide,
   (processLine_extra_fields Strconv.parseDecimal "Adana;abc;7" "Adana" "abc" ["7"] (by decide)
     (by decide)).2 (.fin false 0) ⟨"ParseFloat", "abc", .ErrSyntax⟩ (by decide)⟩

/-! ## `worker` -/

theorem splitChars_ne_nil (sep : Char) (cs : List Char) : Strings.splitChars sep cs ≠ [] := by
  induction cs with
  | nil => simp [Strings.splitChars]
  | cons c cs ih =>
    rw [splitChars_cons]
    split_ifs
    · simp
    · cases h : Strings.splitChars sep cs with
      | nil => simp
      | cons f fs => simp

theorem exists_prefix_of_mem (sep : Char) (cs : List Char) (h : sep ∈ cs) :
    ∃ a b, cs = a ++ sep :: b ∧ sep ∉ a := by
  induction cs with
  | nil => simp at h
  | cons c cs ih =>
    by_cases hc : c = sep
    · exact ⟨[], cs, by rw [hc, List.nil_append], by simp⟩
    · have h1 : sep ∈ cs := by
        rcases List.mem_cons.1 h with h2 | h2
        · exact absurd h2.symm hc
        · exact h2
      obtain ⟨a, b, hab, ha⟩ := ih h1
      refine ⟨c :: a, b, by rw [hab, List.cons_append], ?_⟩
      intro hm
      rcases List.mem_cons.1 hm with h2 | h2
      · exact hc h2.symm
      · exact ha h2

theorem Split_of_delimiter (line : String) (h : ';' ∈ line.data) :
    ∃ city field more, Strings.Split line ';' = city :: field :: more := by
  obtain ⟨a, b, hab, ha⟩ := exists_prefix_of_mem ';' line.data h
  unfold Strings.Split
  rw [hab, splitChars_append _ _ _ ha]
  cases hb : Strings.splitChars ';' b with
  | nil => exact absurd hb (splitChars_ne_nil _ _)
  | cons f fs => exact ⟨String.mk a, String.mk f, fs.map String.mk, rfl⟩

theorem processLine_cases (pf : String → GoFloat × Option Strconv.NumError) (line : String)
    (h : ';' ∈ line.data) :
    (∃ r, processLine pf line = .ok (r, none) ∧ parsedRecord pf line = some r ∧
      parseFailure pf line = none) ∨
    (∃ r err, processLine pf line = .ok (r, some err) ∧ parsedRecord pf line = none ∧
      parseFailure pf line = some err) := by
  obtain ⟨city, field, more, hs⟩ := Split_of_delimiter line h
  obtain ⟨h1, h2⟩ := processLine_of_fields pf line city field more hs
  cases hp : pf field with
  | mk temp e =>
    cases e with
    | none =>
      left
      refine ⟨_, h1 temp hp, ?_, ?_⟩
      · unfold parsedRecord; rw [h1 temp hp]
      · unfold parseFailure; rw [h1 temp hp]
    | some err =>
      right
      refine ⟨_, err, h2 temp err hp, ?_, ?_⟩
      · unfold parsedRecord; rw [h2 temp err hp]
      · unfold parseFailure; rw [h2 temp err hp]

theorem workerLines_live (pf : String → GoFloat × Option Strconv.NumError) (lines : List String)
    (st : WorkerState) (h : ∀ l ∈ lines, ';' ∈ l.data) :
    workerLines .live pf st lines =
      .ok (.next { out := st.out ++ lines.filterMap (parsedRecord pf),
                   printed := st.printed ++ lines.filterMap (parseFailure pf) }) := by
  induction lines generalizing st with
  | nil => simp [workerLines]
  | cons l ls ih =>
    have hl := h l (List.mem_cons_self _ _)
    have hls : ∀ x ∈ ls, ';' ∈ x.data := fun x hx => h x (List.mem_cons_of_mem _ hx)
    unfold workerLines
    simp only [Context.live, Bool.false_eq_true, if_false]
    rcases processLine_cases pf l hl with ⟨r, h1, h2, h3⟩ | ⟨r, err, h1, h2, h3⟩
    · rw [h1]
      simp only []
      rw [show ({ done := false } : Context) = Context.live from rfl, ih _ hls,
        List.filterMap_cons, List.filterMap_cons, h2, h3]
      simp
    · rw [h1]
      simp only []
      rw [show ({ done := false } : Context) = Context.live from rfl, ih _ hls,
        List.filterMap_cons, List.filterMap_cons, h2, h3]
      simp

theorem workerBatches_live (pf : String → GoFloat × Option Strconv.NumError)
    (batches : List (List String)) (st : WorkerState)
    (h : ∀ b ∈ batches, ∀ l ∈ b, ';' ∈ l.data) :
    workerBatches .live pf st batches =
      .ok { out := st.out ++ batches.flatten.filterMap (parsedRecord pf),
            printed := st.printed ++ batches.flatten.filterMap (parseFailure pf) } := by
  induction batches generalizing st with
  | nil => simp [workerBatches]
  | cons b bs ih =>
    unfold workerBatches
    rw [workerLines_live pf b st (h b (List.mem_cons_self _ _))]
    simp only []
    rw [ih _ (fun x hx => h x (List.mem_cons_of_mem _ hx))]
    simp [List.filterMap_append]

/-- Claim C10, as amended.  On batches whose lines all contain a `;`, the worker
runs to the end of every batch and emits exactly the records `processLine` returns
without error, in batch order; a line whose second field does not parse
contributes no record, its error is printed, and the lines and batches after it
are processed all the same.  A line yields a record exactly when its second field
parses, whatever follows that field. -/
theorem worker_emits (pf : String → GoFloat × Option Strconv.NumError)
    (batches : List (List String)) (h : ∀ b ∈ batches, ∀ l ∈ b, ';' ∈ l.data) :
    worker .live pf batches =
      .ok { out := batches.flatten.filterMap (parsedRecord pf),
            printed := batches.flatten.filterMap (parseFailure pf) } ∧
    (∀ line city field more, Strings.Split line ';' = city :: field :: more →
      (∀ temp, pf field = (temp, none) →
        parsedRecord pf line = some { city := city, temperature := float32 temp }) ∧
      (∀ temp err, pf field = (temp, some err) → parsedRecord pf line = none)) := by
  constructor
  · unfold worker
    rw [workerBatches_live pf batches _ h]
    simp
  · intro line city field more hs
    obtain ⟨h1, h2⟩ := processLine_of_fields pf line city field more hs
    constructor
    · intro temp ht
      unfold parsedRecord
      rw [h1 temp ht]
    · intro temp err ht
      unfold parsedRecord
      rw [h2 temp err ht]

/-- Claim C10, counterexample.  The line `"Adana;23.4;7"` has three fields, which
the specification counts as a malformed line yielding no record; the worker emits
the record `{Adana, 23.4}` for it. -/
theorem worker_emits_extra_fields :
    worker .live Strconv.parseDecimal [["Adana;23.4;7"]] =
      .ok { out := [{ city := "Adana",
                      temperature := float32 (.fin false (12268339 * 2 ^ 130)) }],
            printed := [] } ∧
    ["Adana;23.4;7"].filterMap (specParse Strconv.parseDecimal) = [] := by
  constructor <;> decide

/-- Claim C10, instance: a batch with a good line, a line with an unparsable number
and another good line, followed by a second batch. -/
theorem worker_emits_witness :
    (∀ b ∈ [["Adana;23.4", "Bursa;abc", "Izmir;7"], ["Adana;1"]], ∀ l ∈ b, ';' ∈ l.data) ∧
    worker .live Strconv.parseDecimal [["Adana;23.4", "Bursa;abc", "Izmir;7"], ["Adana;1"]] =
      .ok { out := [{ city := "Adana",
                      temperature := float32 (.fin false (12268339 * 2 ^ 130)) },
                    { city := "Izmir", temperature := Float32.ofNat 7 },
                    { city := "Adana", temperature := Float32.ofNat 1 }],
            printed := [⟨"ParseFloat", "abc", .ErrSyntax⟩] } := by
  have h : ∀ b ∈ [["Adana;23.4", "Bursa;abc", "Izmir;7"], ["Adana;1"]], ∀ l ∈ b, ';' ∈ l.data := by
    decide
  refine ⟨h, ?_⟩
  rw [(worker_emits Strconv.parseDecimal _ h).1]
  decide

/-- A batch holding a line without `;` makes the worker panic. -/
theorem worker_no_delimiter_panics (pf : String → GoFloat × Option Strconv.NumError) :
    worker .live pf [["Adana;23.4", "Adana", "Izmir;7"]] = .error (.indexOutOfRange 1 1) := by
  unfold worker workerBatches workerLines
  simp only [Context.live, Bool.false_eq_true, if_false]
  cases hp : pf "23.4" with
  | mk temp e =>
    have hs : Strings.Split "Adana;23.4" ';' = ["Adana", "23.4"] := by decide
    obtain ⟨h1, h2⟩ := processLine_of_fields pf "Adana;23.4" "Adana" "23.4" [] hs
    cases e with
    | none =>
      rw [h1 temp hp]
      simp only []
      unfold workerLines
      simp only [Bool.false_eq_true, if_false,
        processLine_without_delimiter pf "Adana" (by decide)]
    | some err =>
      rw [h2 temp err hp]
      simp only []
      unfold workerLines
      simp only [Bool.false_eq_true, if_false,
        processLine_without_delimiter pf "Adana" (by decide)]

/-! ## `reader` -/

theorem take_succ_set (l : List String) (i : Nat) (x : String) (h : i < l.length) :
    (l.set i x).take (i + 1) = l.take i ++ [x] := by
  induction l generalizing i with
  | nil => simp at h
  | cons a l ih =>
    cases i with
    | zero => simp
    | succ i =>
      simp only [List.length_cons, Nat.add_lt_add_iff_right] at h
      simp only [List.set_cons_succ, List.take_succ_cons, List.cons_append, ih i h]

/-- What the loop of `reader` maintains: the slice has `batchSize` slots of which
the first `index` are filled, every batch sent so far is full, and the batches
sent followed by the filled slots are the lines read so far. -/
theorem readerLoop_spec (B : Nat) (hB : 0 < B) (lines : List String) (st : ReaderState)
    (h1 : st.batch.length = B) (h2 : st.index < B) (h3 : ∀ b ∈ st.out, b.length = B) :
    ∃ st1, readerLoop .live B st lines = .ok st1 ∧
      st1.batch.length = B ∧ st1.index < B ∧ (∀ b ∈ st1.out, b.length = B) ∧
      st1.out.flatten ++ st1.batch.take st1.index =
        st.out.flatten ++ st.batch.take st.index ++ lines := by
  induction lines generalizing st with
  | nil => exact ⟨st, rfl, h1, h2, h3, by simp⟩
  | cons line rest ih =>
    have hidx : st.index < st.batch.length := by omega
    have hstep : readerLoop .live B st (line :: rest) =
        match readerStep B st line with
        | .error p => .error p
        | .ok st1 => readerLoop .live B st1 rest := rfl
    rw [hstep]
    unfold readerStep
    rw [if_pos hidx]
    by_cases hfull : st.index + 1 = B
    · simp only [hfull, if_true]
      have hlen : (st.batch.set st.index line).length = B := by rw [List.length_set, h1]
      have htake : st.batch.set st.index line = st.batch.take st.index ++ [line] := by
        rw [← take_succ_set _ _ _ hidx, hfull, ← hlen, List.take_length]
      obtain ⟨st1, e1, e2, e3, e4, e5⟩ := ih
        { batch := List.replicate B "", index := 0, count := st.count + 1,
          out := st.out ++ [st.batch.set st.index line] }
        (List.length_replicate _ _) hB
        (by
          intro b hb
          rcases List.mem_append.1 hb with hb1 | hb1
          · exact h3 b hb1
          · rw [List.mem_singleton.1 hb1]; exact hlen)
      refine ⟨st1, e1, e2, e3, e4, ?_⟩
      rw [e5, htake]
      simp
    · simp only [hfull, if_false]
      obtain ⟨st1, e1, e2, e3, e4, e5⟩ := ih
        { batch := st.batch.set st.index line, index := st.index + 1, count := st.count,
          out := st.out }
        (by rw [List.length_set, h1]) (by show st.index + 1 < B; omega) h3
      refine ⟨st1, e1, e2, e3, e4, ?_⟩
      rw [e5]
      simp only [take_succ_set _ _ _ hidx]
      simp

theorem length_flatten_of_forall (out : List (List String)) (B : Nat)
    (h : ∀ b ∈ out, b.length = B) : out.flatten.length = out.length * B := by
  induction out with
  | nil => simp
  | cons b bs ih =>
    rw [List.flatten_cons, List.length_append, h b (List.mem_cons_self _ _),
      ih (fun x hx => h x (List.mem_cons_of_mem _ hx)), List.length_cons]
    ring

theorem reader_sends (maxLen : Nat) (file : String) (B : Nat) (hB : 1 ≤ B) (hmax : B ≤ maxLen) :
    ∃ out, reader .live maxLen file (B : Int) = .ok out ∧
      out.length = (Bufio.scanLines file).length / B ∧
      (∀ b ∈ out, b.length = B) ∧
      out.flatten = (Bufio.scanLines file).take (B * ((Bufio.scanLines file).length / B)) ∧
      Bufio.scanLines file =
        out.flatten ++ (Bufio.scanLines file).drop (B * ((Bufio.scanLines file).length / B)) ∧
      ((Bufio.scanLines file).drop (B * ((Bufio.scanLines file).length / B))).length =
        (Bufio.scanLines file).length % B := by
  have hpos : 0 < B := hB
  generalize hl : Bufio.scanLines file = lines
  obtain ⟨st1, e1, e2, e3, e4, e5⟩ := readerLoop_spec B hpos lines
    { batch := List.replicate B "", index := 0, count := 0, out := [] }
    (List.length_replicate _ _) hpos (by simp)
  simp only [List.flatten_nil, List.take_zero, List.append_nil, List.nil_append] at e5
  have hlen := congrArg List.length e5
  rw [List.length_append, length_flatten_of_forall _ B e4, List.length_take, e2,
    Nat.min_eq_left (Nat.le_of_lt e3)] at hlen
  have hdiv : lines.length / B = st1.out.length := by
    rw [← hlen, Nat.add_comm, Nat.add_mul_div_right _ _ hpos, Nat.div_eq_of_lt e3, Nat.zero_add]
  have hmod : lines.length % B = st1.index := by
    rw [← hlen, Nat.add_comm, Nat.add_mul_mod_self_right, Nat.mod_eq_of_lt e3]
  have hflat : st1.out.flatten = lines.take (B * (lines.length / B)) := by
    rw [hdiv, Nat.mul_comm, ← length_flatten_of_forall _ B e4, ← e5, List.take_left]
  refine ⟨st1.out, ?_, hdiv.symm, e4, hflat, ?_, ?_⟩
  · unfold reader
    have hn : ¬ ((B : Int) < 0 ∨ (maxLen : Int) < (B : Int)) := by omega
    rw [if_neg hn, hl]
    simp only [Int.toNat_ofNat]
    rw [e1]
  · rw [hflat, List.take_append_drop]
  · rw [List.length_drop, hmod, hdiv, Nat.mul_comm]
    omega

theorem scanLines_eq_fileLines (file : String)
    (h : ∀ p ∈ Bufio.rawLines file.data, Bufio.byteLen p < Bufio.MaxScanTokenSize) :
    Bufio.scanLines file = Bufio.fileLines file := by
  unfold Bufio.scanLines Bufio.fileLines
  congr 1
  rw [List.takeWhile_eq_self_iff]
  intro p hp
  exact decide_eq_true (h p hp)

/-- Claim C7, as amended.  For a file whose lines are all shorter than
`bufio.MaxScanTokenSize = 65536` bytes and a batch size `B` with `1 <= B` that
`make([]string, B)` can allocate, with no cancellation, `reader` sends exactly
`floor(n / B)` batches, `n` being the number of lines of the file; every batch holds
exactly `B` lines, the batches laid end to end are the first `B * floor(n / B)`
lines of the file in file order, and the remaining `n mod B` lines are not sent. -/
theorem reader_batches (maxLen : Nat) (file : String) (B : Nat) (hB : 1 ≤ B)
    (hmax : B ≤ maxLen)
    (hshort : ∀ p ∈ Bufio.rawLines file.data, Bufio.byteLen p < Bufio.MaxScanTokenSize) :
    ∃ out, reader .live maxLen file (B : Int) = .ok out ∧
      out.length = (Bufio.fileLines file).length / B ∧
      (∀ b ∈ out, b.length = B) ∧
      out.flatten = (Bufio.fileLines file).take (B * ((Bufio.fileLines file).length / B)) ∧
      Bufio.fileLines file =
        out.flatten ++ (Bufio.fileLines file).drop (B * ((Bufio.fileLines file).length / B)) ∧
      ((Bufio.fileLines file).drop (B * ((Bufio.fileLines file).length / B))).length =
        (Bufio.fileLines file).length % B := by
  have h := reader_sends maxLen file B hB hmax
  rw [scanLines_eq_fileLines file hshort] at h
  exact h

/-- Claim C7, instance: a file of five lines and batch size two give two batches,
and the fifth line is not sent. -/
theorem reader_batches_witness :
    1 ≤ 2 ∧ 2 ≤ 1000 ∧
    (∀ p ∈ Bufio.rawLines "a\nb\nc\nd\ne\n".data, Bufio.byteLen p < Bufio.MaxScanTokenSize) ∧
    Bufio.fileLines "a\nb\nc\nd\ne\n" = ["a", "b", "c", "d", "e"] ∧
    reader .live 1000 "a\nb\nc\nd\ne\n" 2 = .ok [["a", "b"], ["c", "d"]] ∧
    ∃ out, reader .live 1000 "a\nb\nc\nd\ne\n" ((2 : Nat) : Int) = .ok out ∧
      out.length = (Bufio.fileLines "a\nb\nc\nd\ne\n").length / 2 ∧
      (∀ b ∈ out, b.length = 2) ∧
      out.flatten = (Bufio.fileLines "a\nb\nc\nd\ne\n").take
        (2 * ((Bufio.fileLines "a\nb\nc\nd\ne\n").length / 2)) ∧
      Bufio.fileLines "a\nb\nc\nd\ne\n" =
        out.flatten ++ (Bufio.fileLines "a\nb\nc\nd\ne\n").drop
          (2 * ((Bufio.fileLines "a\nb\nc\nd\ne\n").length / 2)) ∧
      ((Bufio.fileLines "a\nb\nc\nd\ne\n").drop
        (2 * ((Bufio.fileLines "a\nb\nc\nd\ne\n").length / 2))).length =
        (Bufio.fileLines "a\nb\nc\nd\ne\n").length % 2 :=
  ⟨by decide, by decide, by decide, by decide, by decide,
   reader_batches 1000 "a\nb\nc\nd\ne\n" 2 (by decide) (by decide) (by decide)⟩

theorem byteLen_replicate_x (n : Nat) : Bufio.byteLen (List.replicate n 'x') = n := by
  induction n with
  | zero => rfl
  | succ n ih =>
    rw [List.replicate_succ]
    show Char.utf8Size 'x' + Bufio.byteLen (List.replicate n 'x') = n + 1
    rw [ih, show Char.utf8Size 'x' = 1 by decide, Nat.add_comm]

theorem newline_not_mem_replicate_x (n : Nat) : '\n' ∉ List.replicate n 'x' := by
  intro h
  have := (List.mem_replicate.1 h).2
  exact absurd this (by decide)

theorem rawLines_long_line (n : Nat) :
    Bufio.rawLines ('a' :: '\n' :: (List.replicate n 'x' ++ '\n' :: ['c', '\n'])) =
      [['a'], List.replicate n 'x', ['c']] := by
  have h1 : Strings.splitChars '\n' ('a' :: '\n' :: (List.replicate n 'x' ++ '\n' :: ['c', '\n']))
      = [['a'], List.replicate n 'x', ['c'], []] := by
    have e1 : 'a' :: '\n' :: (List.replicate n 'x' ++ '\n' :: ['c', '\n'])
        = ['a'] ++ '\n' :: (List.replicate n 'x' ++ '\n' :: ['c', '\n']) := rfl
    rw [e1, splitChars_append _ _ _ (by decide),
      splitChars_append _ _ _ (newline_not_mem_replicate_x n)]
    have e2 : Strings.splitChars '\n' ['c', '\n'] = [['c'], []] := by decide
    rw [e2]
  unfold Bufio.rawLines
  rw [h1]
  rfl

/-- A file of three lines whose second line has `n >= 65536` bytes: the scanner
yields the first line only. -/
theorem scanLines_long_line (n : Nat) (hn : Bufio.MaxScanTokenSize ≤ n) :
    Bufio.scanLines (String.mk ('a' :: '\n' :: (List.replicate n 'x' ++ '\n' :: ['c', '\n'])))
      = ["a"] := by
  unfold Bufio.scanLines
  show List.map _ (List.takeWhile _
    (Bufio.rawLines ('a' :: '\n' :: (List.replicate n 'x' ++ '\n' :: ['c', '\n'])))) = _
  rw [rawLines_long_line, List.takeWhile_cons, List.takeWhile_cons]
  have h1 : decide (Bufio.byteLen ['a'] < Bufio.MaxScanTokenSize) = true := by decide
  have h2 : ¬ (decide (Bufio.byteLen (List.replicate n 'x') < Bufio.MaxScanTokenSize) = true) := by
    rw [byteLen_replicate_x, decide_eq_true_eq]
    omega
  rw [if_pos h1, if_neg h2]
  decide

theorem reader_long_line (n : Nat) (hn : Bufio.MaxScanTokenSize ≤ n) :
    reader .live (2 ^ 44)
      (String.mk ('a' :: '\n' :: (List.replicate n 'x' ++ '\n' :: ['c', '\n']))) 1
      = .ok [["a"]] := by
  unfold reader
  rw [scanLines_long_line n hn]
  decide

theorem fileLines_long_line (n : Nat) :
    (Bufio.fileLines
      (String.mk ('a' :: '\n' :: (List.replicate n 'x' ++ '\n' :: ['c', '\n'])))).length = 3 := by
  unfold Bufio.fileLines
  show (List.map _
    (Bufio.rawLines ('a' :: '\n' :: (List.replicate n 'x' ++ '\n' :: ['c', '\n'])))).length = 3
  rw [rawLines_long_line]
  rfl

/-- Claim C7, counterexample.  A file of three lines whose second line has 70000
bytes, read with batch size 1: the scanner stops at the long line and `reader`
sends one batch, not three.  And with the batch size `1 << 62` the call
`make([]string, batchSize)` panics. -/
theorem reader_stops_at_long_line :
    (Bufio.fileLines
      (String.mk ('a' :: '\n' :: (List.replicate 70000 'x' ++ '\n' :: ['c', '\n'])))).length = 3 ∧
    reader .live (2 ^ 44)
      (String.mk ('a' :: '\n' :: (List.replicate 70000 'x' ++ '\n' :: ['c', '\n']))) 1
      = .ok [["a"]] ∧
    reader .live (2 ^ 44) "a\nb\n" (2 ^ 62) = .error .makesliceLenOutOfRange :=
  ⟨fileLines_long_line 70000, reader_long_line 70000 (by decide), by decide⟩

/-! ## Order independence of the aggregation -/

theorem tempsOf_perm {l1 l2 : List Record} (h : l1.Perm l2) (c : String) :
    (tempsOf c l1).Perm (tempsOf c l2) := by
  unfold tempsOf
  exact List.Perm.map _ (List.Perm.filter _ h)

theorem combiner_perm {s1 s2 : List Record} (h : s1.Perm s2) (c : String) :
    ((combiner .live s1).get c).map (fun st => (st.min, st.max, st.count)) =
    ((combiner .live s2).get c).map (fun st => (st.min, st.max, st.count)) := by
  have hp := tempsOf_perm h c
  rw [combiner_get, combiner_get]
  by_cases h1 : tempsOf c s1 = []
  · have h2 : tempsOf c s2 = [] := by
      rw [h1] at hp
      exact List.Perm.eq_nil hp.symm
    rw [if_pos h1, if_pos h2]
  · have h2 : ¬ tempsOf c s2 = [] := by
      intro h3
      rw [h3] at hp
      exact h1 (List.Perm.eq_nil hp)
    rw [if_neg h1, if_neg h2]
    obtain ⟨a1, a2, a3, _⟩ := addAll_fields_perm DefaultStats _ _ hp
    simp only [Option.map_some', a1, a2, a3]

/-- Claim C3.  Folding two lists of temperatures that are permutations of each
other into the same `Stats` yields the same `min`, the same `max` and the same
`count`, and, when no addition on the `sum` field rounds in either order, the same
`sum`.  Hence two runs of `combiner` on the same input queues, whatever the two
interleavings, end with the same `min`, `max` and `count` for every city. -/
theorem addAll_perm (s : Stats) (vs ws : List Float32) (h : vs.Perm ws) :
    ((s.addAll vs).min = (s.addAll ws).min ∧
     (s.addAll vs).max = (s.addAll ws).max ∧
     (s.addAll vs).count = (s.addAll ws).count ∧
     (sumsExact s.sum vs = true → sumsExact s.sum ws = true →
       (s.addAll vs).sum = (s.addAll ws).sum)) ∧
    (∀ (inputs : List (List Record)) (s1 s2 : List Record),
      Interleaving inputs s1 → Interleaving inputs s2 → ∀ c,
        ((combiner .live s1).get c).map (fun st => (st.min, st.max, st.count)) =
        ((combiner .live s2).get c).map (fun st => (st.min, st.max, st.count))) :=
  ⟨addAll_fields_perm s vs ws h,
   fun _ _ _ h1 h2 c => combiner_perm (h1.perm.trans h2.perm.symm) c⟩

/-- Claim C3, instance: the values `1, 2, 3` folded in two orders. -/
theorem addAll_perm_witness :
    [Float32.ofNat 1, Float32.ofNat 2, Float32.ofNat 3].Perm
      [Float32.ofNat 3, Float32.ofNat 1, Float32.ofNat 2] ∧
    (DefaultStats.addAll [Float32.ofNat 1, Float32.ofNat 2, Float32.ofNat 3]).min =
      (DefaultStats.addAll [Float32.ofNat 3, Float32.ofNat 1, Float32.ofNat 2]).min ∧
    (DefaultStats.addAll [Float32.ofNat 1, Float32.ofNat 2, Float32.ofNat 3]).max =
      (DefaultStats.addAll [Float32.ofNat 3, Float32.ofNat 1, Float32.ofNat 2]).max ∧
    (DefaultStats.addAll [Float32.ofNat 1, Float32.ofNat 2, Float32.ofNat 3]).count =
      (DefaultStats.addAll [Float32.ofNat 3, Float32.ofNat 1, Float32.ofNat 2]).count ∧
    (DefaultStats.addAll [Float32.ofNat 1, Float32.ofNat 2, Float32.ofNat 3]).sum =
      (DefaultStats.addAll [Float32.ofNat 3, Float32.ofNat 1, Float32.ofNat 2]).sum := by
  have hp : [Float32.ofNat 1, Float32.ofNat 2, Float32.ofNat 3].Perm
      [Float32.ofNat 3, Float32.ofNat 1, Float32.ofNat 2] :=
    (List.Perm.cons _ (List.Perm.swap _ _ _)).trans (List.Perm.swap _ _ _)
  have h := (addAll_perm DefaultStats _ _ hp).1
  exact ⟨hp, h.1, h.2.1, h.2.2.1, h.2.2.2 (by decide) (by decide)⟩

/-- With rounding the `sum` does depend on the order: starting from `0`, the values
`16777216, 1, 1` sum to `16777216`, and the values `1, 1, 16777216` to `16777218`. -/
theorem sum_order_dependent :
    [Float32.ofNat 16777216, Float32.ofNat 1, Float32.ofNat 1].Perm
      [Float32.ofNat 1, Float32.ofNat 1, Float32.ofNat 16777216] ∧
    (DefaultStats.addAll [Float32.ofNat 16777216, Float32.ofNat 1, Float32.ofNat 1]).sum.val
      = GoFloat.ofNat 16777216 ∧
    (DefaultStats.addAll [Float32.ofNat 1, Float32.ofNat 1, Float32.ofNat 16777216]).sum.val
      = GoFloat.ofNat 16777218 := by
  refine ⟨?_, by decide, by decide⟩
  exact (List.Perm.swap _ _ _).trans (List.Perm.cons _ (List.Perm.swap _ _ _))

/-! ## The range in which the sentinels work -/

theorem le_refl_of_not_nan (a : GoFloat) (ha : a.IsNaN = false) : GoFloat.le a a = true := by
  rw [le_iff_maxTier a a ha ha]
  omega

theorem not_nan_of_le_left (a b : GoFloat) (h : GoFloat.le a b = true) : a.IsNaN = false := by
  cases a with
  | nan => simp [GoFloat.le] at h
  | inf s => rfl
  | fin s m => rfl

theorem not_nan_of_le_right (a b : GoFloat) (h : GoFloat.le a b = true) : b.IsNaN = false := by
  cases b with
  | nan => cases a <;> simp [GoFloat.le] at h
  | inf s => rfl
  | fin s m => rfl

theorem finKey_eq_of_numer_eq (a b : GoFloat) (h1 : maxTier a = maxTier b)
    (h2 : a.numer = b.numer) (h3 : a.numer ≠ 0) : finKey a = finKey b := by
  cases a with
  | nan => simp [GoFloat.numer] at h3
  | inf s => simp [GoFloat.numer] at h3
  | fin s m =>
    cases b with
    | nan => simp [maxTier] at h1
    | inf t => cases t <;> simp [maxTier] at h1
    | fin t n =>
      cases s <;> cases t <;>
        simp only [finKey, GoFloat.numer, GoFloat.signed, if_true, if_false,
          Bool.false_eq_true] at h2 h3 ⊢ <;> omega

theorem Min_eq_right_of_le (x y : GoFloat) (h : GoFloat.le y x = true) (hz : x.numer ≠ 0) :
    Math.Min x y = y := by
  have hx := not_nan_of_le_right _ _ h
  have hy := not_nan_of_le_left _ _ h
  rw [le_iff_maxTier y x hy hx] at h
  obtain ⟨h3, h4⟩ := minTier_lt_iff x y hx hy
  have h5 := numer_le_of_finKey_le x y
  rw [Min_rank]
  split_ifs with hc
  · apply minTier_finKey_inj
    · omega
    · apply finKey_eq_of_numer_eq <;> omega
  · rfl

theorem Max_eq_right_of_le (x y : GoFloat) (h : GoFloat.le x y = true) (hz : x.numer ≠ 0) :
    Math.Max x y = y := by
  have hx := not_nan_of_le_left _ _ h
  have hy := not_nan_of_le_right _ _ h
  rw [le_iff_maxTier x y hx hy] at h
  have h5 := numer_le_of_finKey_le y x
  rw [Max_rank]
  split_ifs with hc
  · apply maxTier_finKey_inj
    · omega
    · apply finKey_eq_of_numer_eq <;> omega
  · rfl

theorem MaxFloat32_numer : MaxFloat32.numer ≠ 0 := by decide

theorem MinFloat32_numer : MinFloat32.numer ≠ 0 := by decide

theorem DefaultStats_first (v : Float32) (h1 : GoFloat.le MinFloat32 v.val = true)
    (h2 : GoFloat.le v.val MaxFloat32 = true) :
    (DefaultStats.AddTemperature v).min = v ∧ (DefaultStats.AddTemperature v).max = v := by
  constructor
  · apply Float32.ext_val
    rw [AddTemperature_min_val, DefaultStats_min_val]
    exact Min_eq_right_of_le _ _ h2 MaxFloat32_numer
  · apply Float32.ext_val
    rw [AddTemperature_max_val, DefaultStats_max_val]
    exact Max_eq_right_of_le _ _ h1 MinFloat32_numer

theorem AddTemperature_operand (s : Stats) (v : Float32) :
    ((s.AddTemperature v).max = s.max ∨ (s.AddTemperature v).max = v) ∧
    ((s.AddTemperature v).min = s.min ∨ (s.AddTemperature v).min = v) := by
  constructor
  · rcases Max_eq_or s.max.val v.val with h | h
    · left; exact Float32.ext_val _ _ (by rw [AddTemperature_max_val, h])
    · right; exact Float32.ext_val _ _ (by rw [AddTemperature_max_val, h])
  · rcases Min_eq_or s.min.val v.val with h | h
    · left; exact Float32.ext_val _ _ (by rw [AddTemperature_min_val, h])
    · right; exact Float32.ext_val _ _ (by rw [AddTemperature_min_val, h])

theorem addAll_extremes (vs seen : List Float32) (s : Stats)
    (hv : ∀ v ∈ vs, v.val.IsNaN = false)
    (h1 : s.min ∈ seen) (h2 : s.max ∈ seen)
    (h3 : ∀ w ∈ seen, w.val.IsNaN = false ∧ GoFloat.le s.min.val w.val = true ∧
      GoFloat.le w.val s.max.val = true) :
    (s.addAll vs).min ∈ seen ++ vs ∧ (s.addAll vs).max ∈ seen ++ vs ∧
    ∀ w ∈ seen ++ vs, GoFloat.le (s.addAll vs).min.val w.val = true ∧
      GoFloat.le w.val (s.addAll vs).max.val = true := by
  induction vs generalizing s seen with
  | nil => simpa using ⟨h1, h2, fun w hw => (h3 w hw).2⟩
  | cons v vs ih =>
    have hvn := hv v (List.mem_cons_self _ _)
    have hmin := (h3 _ h1).1
    have hmax := (h3 _ h2).1
    have a1 := IsNaN_Min _ _ hmin hvn
    have a2 := IsNaN_Max _ _ hmax hvn
    have key := ih (seen ++ [v]) (s.AddTemperature v)
      (fun w hw => hv w (List.mem_cons_of_mem _ hw))
      (by
        rcases (AddTemperature_operand s v).2 with h | h
        · rw [h]; exact List.mem_append_left _ h1
        · rw [h]; exact List.mem_append_right _ (List.mem_singleton_self _))
      (by
        rcases (AddTemperature_operand s v).1 with h | h
        · rw [h]; exact List.mem_append_left _ h2
        · rw [h]; exact List.mem_append_right _ (List.mem_singleton_self _))
      (by
        intro w hw
        rw [AddTemperature_min_val, AddTemperature_max_val]
        rcases List.mem_append.1 hw with hw1 | hw1
        · obtain ⟨b1, b2, b3⟩ := h3 w hw1
          exact ⟨b1, le_trans_of_not_nan _ _ _ a1 hmin b1 (Min_le _ _ hmin hvn).1 b2,
            le_trans_of_not_nan _ _ _ b1 hmax a2 b3 (le_Max _ _ hmax hvn).1⟩
        · rw [List.mem_singleton.1 hw1]
          exact ⟨hvn, (Min_le _ _ hmin hvn).2, (le_Max _ _ hmax hvn).2⟩)
    rw [addAll_cons]
    simpa using key

/-- Within the range of the sentinels they do act as infinities: for a non-empty
list of values that all lie between `-(1<<24 - 1)` and `1<<24 - 1`, folding the
list into `DefaultStats()` yields a `min` and a `max` that are values of the list,
with `min <= v <= max` for every value `v` of the list. -/
theorem DefaultStats_addAll_extremes (vs : List Float32) (hne : vs ≠ [])
    (hv : ∀ v ∈ vs, GoFloat.le MinFloat32 v.val = true ∧ GoFloat.le v.val MaxFloat32 = true) :
    (DefaultStats.addAll vs).min ∈ vs ∧ (DefaultStats.addAll vs).max ∈ vs ∧
    ∀ w ∈ vs, Float32.le (DefaultStats.addAll vs).min w = true ∧
      Float32.le w (DefaultStats.addAll vs).max = true := by
  cases vs with
  | nil => exact absurd rfl hne
  | cons v vs =>
    obtain ⟨c1, c2⟩ := hv v (List.mem_cons_self _ _)
    obtain ⟨d1, d2⟩ := DefaultStats_first v c1 c2
    have hvn := not_nan_of_le_left _ _ c2
    have key := addAll_extremes vs [v] (DefaultStats.AddTemperature v)
      (fun w hw => not_nan_of_le_left _ _ (hv w (List.mem_cons_of_mem _ hw)).2)
      (by rw [d1]; exact List.mem_singleton_self _)
      (by rw [d2]; exact List.mem_singleton_self _)
      (by
        intro w hw
        rw [List.mem_singleton.1 hw, d1, d2]
        exact ⟨hvn, le_refl_of_not_nan _ hvn, le_refl_of_not_nan _ hvn⟩)
    rw [addAll_cons]
    exact key

/-! ## `AddTemperature`, field by field -/

/-- Claim C2.  `AddTemperature(s, v)` yields the `Stats` whose `max` is
`math.Max(s.max, v)` and whose `min` is `math.Min(s.min, v)` (the detour through
`float64` loses nothing; the result is one of the two operands and, when neither
is NaN, it bounds both), whose `sum` is the `float32` sum `s.sum + v` and whose
`count` is the `float32` sum `s.count + 1`; folding `23` into
`{min:1, max:20, sum:5, count:4}` yields `{min:1, max:23, sum:28, count:5}`. -/
theorem AddTemperature_spec (s : Stats) (v : Float32) :
    (s.AddTemperature v).max.val = Math.Max s.max.val v.val ∧
    ((s.AddTemperature v).max = s.max ∨ (s.AddTemperature v).max = v) ∧
    (s.max.val.IsNaN = false → v.val.IsNaN = false →
      Float32.le s.max (s.AddTemperature v).max = true ∧
      Float32.le v (s.AddTemperature v).max = true) ∧
    (s.AddTemperature v).min.val = Math.Min s.min.val v.val ∧
    ((s.AddTemperature v).min = s.min ∨ (s.AddTemperature v).min = v) ∧
    (s.min.val.IsNaN = false → v.val.IsNaN = false →
      Float32.le (s.AddTemperature v).min s.min = true ∧
      Float32.le (s.AddTemperature v).min v = true) ∧
    (s.AddTemperature v).sum = Float32.add s.sum v ∧
    (s.AddTemperature v).count = Float32.add s.count (Float32.ofNat 1) ∧
    (Stats.AddTemperature
        { min := Float32.ofNat 1, max := Float32.ofNat 20, sum := Float32.ofNat 5,
          count := Float32.ofNat 4 } (Float32.ofNat 23)
      = { min := Float32.ofNat 1, max := Float32.ofNat 23, sum := Float32.ofNat 28,
          count := Float32.ofNat 5 }) := by
  refine ⟨AddTemperature_max_val s v, (AddTemperature_operand s v).1, ?_,
    AddTemperature_min_val s v, (AddTemperature_operand s v).2, ?_, rfl, rfl, by decide⟩
  · intro h1 h2
    unfold Float32.le
    rw [AddTemperature_max_val]
    exact le_Max _ _ h1 h2
  · intro h1 h2
    unfold Float32.le
    rw [AddTemperature_min_val]
    exact Min_le _ _ h1 h2

end Brc
